import Mathlib

/-!
Verification of the transaction classification and behavioral award engine
(`lib/categorizer.ts`, `lib/awards.ts`, and the streak detector in `app/page.tsx`).

Modelling conventions:
* Dates are `YYYY-MM-DD` strings in the source; since the engine assumes
  validated zero-padded calendar dates, a date is embedded as a record of
  year, month, day, and string comparison on zero-padded dates coincides with
  lexicographic comparison of the fields.  The JavaScript `Date` arithmetic
  in `daysBetween`, `dow` and `nextDay` (proleptic Gregorian with
  normalisation) is embedded by an explicit civil day count.
* Amounts are JavaScript numbers (IEEE-754 binary64); the main embedding
  keeps them as `Int`, which is exact for integer-valued amounts since
  binary64 addition of integers below `2 ^ 53` is exact.  Where the
  summation order of binary64 addition is itself at issue (the per-day nets
  of the survival simulation), a separate dyadic model `Dyadic` embeds
  binary64 values exactly and adds them with correct round-to-nearest,
  ties-to-even rounding to a 53-bit significand, which is IEEE-754 binary64
  addition in the normal range (overflow and subnormals do not arise at the
  magnitudes involved).
* Award records carry `id` and `trigger_value`; the `roast_text`, `title` and
  `emoji` fields are presentation strings derived from the same data and are
  not modelled.
* The unbounded `while` loop of `sobrevivienteExtremo` is embedded with an
  explicit fuel equal to the day distance plus one; running out of fuel is
  represented by `none` at the outer option layer and is proved unreachable
  for valid dates.
-/

/- ### Calendar model (helpers of `lib/awards.ts`, lines 23-54) -/

structure Date where
  y : Nat
  m : Nat
  d : Nat
deriving DecidableEq

def isLeap (y : Nat) : Bool :=
  (y % 4 == 0 && y % 100 != 0) || y % 400 == 0

def daysInMonth (y m : Nat) : Nat :=
  if m = 2 then (if isLeap y then 29 else 28)
  else if m = 4 ∨ m = 6 ∨ m = 9 ∨ m = 11 then 30
  else 31

def daysBeforeMonth (y : Nat) : Nat → Nat
  | 0 => 0
  | 1 => 0
  | m + 2 => daysBeforeMonth y (m + 1) + daysInMonth y (m + 1)

/-- Civil day index of a date (0 = January 1 of year 1, proleptic Gregorian).
For valid dates this agrees with the JavaScript epoch arithmetic used by
`daysBetween` and `getDay` up to a constant shift. -/
def dayNumber (dt : Date) : Nat :=
  365 * (dt.y - 1) + (dt.y - 1) / 4 - (dt.y - 1) / 100 + (dt.y - 1) / 400
    + daysBeforeMonth dt.y dt.m + (dt.d - 1)

/-- Days contributed by the first `k` whole years (year part of `dayNumber`). -/
def yearDays (k : Nat) : Nat := 365 * k + k / 4 - k / 100 + k / 400

/-- Day of month (1-31) from the date: `parseInt(dateStr.slice(8))`. -/
def dom (dt : Date) : Nat := dt.d

/-- Day of week, 0 = Sunday ... 5 = Friday, 6 = Saturday, as JavaScript
`new Date(y, m-1, d).getDay()`.  January 1 of year 1 was a Monday. -/
def dow (dt : Date) : Nat := (dayNumber dt + 1) % 7

/-- Days from `a` to `b`, positive when `b` is after `a`. -/
def daysBetween (a b : Date) : Int := (dayNumber b : Int) - (dayNumber a : Int)

/-- Advance a date by one day, as `new Date(y, m-1, d+1)` normalisation
behaves on valid dates. -/
def nextDay (dt : Date) : Date :=
  if dt.d < daysInMonth dt.y dt.m then ⟨dt.y, dt.m, dt.d + 1⟩
  else if dt.m < 12 then ⟨dt.y, dt.m + 1, 1⟩
  else ⟨dt.y + 1, 1, 1⟩

/-- Lexicographic strict order on dates; on zero-padded `YYYY-MM-DD` strings
this is exactly `localeCompare < 0` resp. `<` on strings. -/
def dateLt (a b : Date) : Bool :=
  decide (a.y < b.y ∨ (a.y = b.y ∧ (a.m < b.m ∨ (a.m = b.m ∧ a.d < b.d))))

def dateLe (a b : Date) : Bool :=
  decide (a.y < b.y ∨ (a.y = b.y ∧ (a.m < b.m ∨ (a.m = b.m ∧ a.d ≤ b.d))))

/-- A valid zero-padded calendar date of the proleptic Gregorian calendar. -/
def validDate (dt : Date) : Bool :=
  decide (1 ≤ dt.y ∧ 1 ≤ dt.m ∧ dt.m ≤ 12 ∧ 1 ≤ dt.d ∧ dt.d ≤ daysInMonth dt.y dt.m)

/- ### Categorizer (`lib/categorizer.ts`) -/

inductive Category where
  | convenience_store
  | rideshare
  | food_delivery
  | restaurant_cafe
  | supermarket
  | cash_withdrawal
  | subscription_gym
  | ecommerce
  | pharmacy_health
  | spei_transfer
  | bank_fee
  | gas_transport
  | education
  | other
deriving DecidableEq

/-- The keyword `"sam's"` of the supermarket list (apostrophe spelled out). -/
def samsKeyword : String := String.mk ['s', 'a', 'm', Char.ofNat 39, 's']

def KEYWORDS : Category → List String
  | .food_delivery =>
    ["uber eats", "ubereats", "uber*eats", "ubreats",
     "rappi",
     "didi food", "didifood", "didi*food",
     "sin delantal", "justo", "cornershop"]
  | .rideshare =>
    ["uber", "didi", "cabify", "beat", "in driver", "indriver"]
  | .bank_fee =>
    ["comision", "anualidad", "cargo por", "iva comision",
     "interes", "penalizacion", "cargo mensual", "mantenimiento",
     "cobro automatico seguro"]
  | .cash_withdrawal =>
    ["retiro", "cajero", "atm", "disposicion", "efectivo",
     "banamex atm", "hsbc atm", "bbva atm", "santander atm", "scotiabank atm"]
  | .spei_transfer =>
    ["spei", "transferencia", "traspaso", "envio", "pago a",
     "codi", "codi pago",
     "mercadopago", "mercado pago", "clip", "conekta"]
  | .subscription_gym =>
    ["smartfit", "sport city", "sportcity", "gym", "gimnasio",
     "netflix", "spotify", "disney+", "disney", "hbo max", "hbo",
     "apple", "google", "microsoft", "amazon prime", "paramount",
     "openai", "chatgpt", "claude", "dropbox", "icloud", "youtube premium",
     "zoom", "slack", "notion", "duolingo", "crunchyroll", "twitch",
     "plata+", "suscripcion plata", "storytel", "dochub"]
  | .gas_transport =>
    ["gasolineria", "gasolinera", "gasolina", "oxxo gas",
     "estacion de servicio", "estacion de gas", "estacion ",
     "^est ",
     "pemex", "bp", "shell", "mobil",
     "metro", "metrobus", "trolebus", "ecobici", "tren",
     "gas"]
  | .convenience_store =>
    ["oxxo", "7-eleven", "seven eleven", "7eleven", "7 eleven",
     "circle k", "circlek", "six", "extra", "kiosko",
     "farmacias guadalajara", "farmacia guadalajara",
     "chedraui", "bodega aurrera", "aurrera", "walmart express",
     "walmartexpress", "seven 11",
     "mini super", "minisuper", "super peche", "abarrotes", "miscelanea"]
  | .restaurant_cafe =>
    ["koi", "cafe", "coffee", "starbucks",
     "restaurant", "restaurante", "^rest ",
     "taco", "tacos", "sushi", "pizza", "burger", "hamburguesa",
     "subway", "kfc", "mcdonalds", "dominos", "vips", "sanborns",
     "el pescador", "la nacional", "cielito querido", "punta del cielo",
     "proscenio", "joselo", "yangguofu", "granola"]
  | .supermarket =>
    ["walmart", "sams club", samsKeyword, "costco", "soriana",
     "chedraui", "la comer", "city market", "fresko", "superama",
     "heb", "selecto", "mega", "comercial mexicana"]
  | .pharmacy_health =>
    ["farmacia", "farmacias", "similares", "farmacia del ahorro",
     "benavides", "cruz verde", "san pablo", "farmacias san pablo",
     "^dr ", "doctor ", "dra ",
     "hospital", "clinica", "laboratorio", "dentista", "optica"]
  | .ecommerce =>
    ["amazon", "mercado libre", "mercadolibre", "meli", "shein",
     "aliexpress", "liverpool", "palacio de hierro", "zara",
     "h&m", "pull and bear", "bershka", "privalia", "linio",
     "wish", "ebay", "paypal",
     "office depot", "officedepot", "fedex", "staples"]
  | .education =>
    ["colegio", "escuela", "universidad", "inscripcion",
     "colegiatura", "coursera", "udemy", "platzi"]
  | .other => []

/-- Priority order of the 13 named categories, more specific first. -/
def PRIORITY : List Category :=
  [.food_delivery, .rideshare, .bank_fee, .cash_withdrawal, .spei_transfer,
   .subscription_gym, .gas_transport, .convenience_store, .restaurant_cafe,
   .supermarket, .pharmacy_health, .ecommerce, .education]

/-- Lower-cased character view of a description (`description.toLowerCase()`,
restricted to the ASCII case mapping, which covers every keyword). -/
def lowerChars (s : String) : List Char := s.data.map Char.toLower

/-- Substring containment, as JavaScript `String.prototype.includes`. -/
def containsSub (needle : List Char) : List Char → Bool
  | [] => needle.isEmpty
  | c :: rest => needle.isPrefixOf (c :: rest) || containsSub needle rest

/-- Suffix of the haystack just after the first occurrence of the needle. -/
def afterFirstOcc (needle : List Char) : List Char → Option (List Char)
  | [] => if needle.isEmpty then some [] else none
  | c :: rest =>
    if needle.isPrefixOf (c :: rest) then some ((c :: rest).drop needle.length)
    else afterFirstOcc needle rest

/-- Sequential pattern parts separated by `.*`: each part must occur, in
order, after the previous one (the existential semantics of an unanchored
regular-expression test). -/
def seqMatch : List (List Char) → List Char → Bool
  | [], _ => true
  | p :: ps, hay =>
    match afterFirstOcc p hay with
    | none => false
    | some rest => seqMatch ps rest

/-- Split a keyword at the `*` wildcards. -/
def splitStar : List Char → List (List Char)
  | [] => [[]]
  | c :: rest =>
    let r := splitStar rest
    if c = '*' then [] :: r
    else
      match r with
      | [] => [[c]]
      | p :: ps => (c :: p) :: ps

/-- One keyword test (`kwMatches`, `lib/categorizer.ts` lines 143-155):
a leading `^` anchors the match at the start, `*` is a wildcard run. -/
def kwMatches (d : List Char) (kw : String) : Bool :=
  let k := kw.data
  let anchored := k.head? = some '^'
  let base := if anchored then k.tail else k
  if base.contains '*' then
    let parts := splitStar base
    if anchored then
      match parts with
      | [] => true
      | p :: ps => p.isPrefixOf d && seqMatch ps (d.drop p.length)
    else seqMatch parts d
  else if anchored then base.isPrefixOf d
  else containsSub base d

def catMatches (d : List Char) (c : Category) : Bool :=
  (KEYWORDS c).any (kwMatches d)

/-- Tokens whose presence makes the rideshare category be skipped. -/
def rideshareExcluded (d : List Char) : Bool :=
  containsSub (lowerChars ("eats")) d || containsSub (lowerChars ("food")) d ||
    containsSub (lowerChars ("rappi")) d

/-- The priority scan of `categorize` over a list of candidate categories. -/
def categorizeFrom (d : List Char) : List Category → Category
  | [] => .other
  | c :: cats =>
    if c = .rideshare ∧ rideshareExcluded d then categorizeFrom d cats
    else if catMatches d c then c
    else categorizeFrom d cats

def categorize (description : String) : Category :=
  categorizeFrom (lowerChars description) PRIORITY

structure Transaction where
  date : Date
  amount : Int
  description : String
deriving DecidableEq

structure CategorizedTransaction extends Transaction where
  category : Category
deriving DecidableEq

def categorizeTransactions (txns : List Transaction) : List CategorizedTransaction :=
  txns.map fun t => { t with category := categorize t.description }

abbrev CTx := CategorizedTransaction

/- ### Awards (`lib/awards.ts`) -/

structure Award where
  id : String
  trigger_value : Int
deriving DecidableEq

/-- Stable insertion into a list that is sorted with respect to the strict
comparator `lt`: the new element goes before the first strictly smaller
element, hence after every earlier element it ties with. -/
def insSort (lt : α → α → Bool) (a : α) : List α → List α
  | [] => [a]
  | b :: rest => if lt a b then a :: b :: rest else b :: insSort lt a rest

/-- Stable sort by the strict comparator `lt`, processing the input left to
right; this is the behaviour of `Array.prototype.sort` with a comparator
returning a negative number exactly when `lt`. -/
def stableSortBy (lt : α → α → Bool) (l : List α) : List α :=
  l.foldl (fun acc x => insSort lt x acc) []

def indiceGodin (txns : List CTx) : Option Award :=
  let list := txns.filter fun t => decide (t.category = .convenience_store ∧ t.amount < 0)
  if list.length < 2 then none
  else some ⟨"indice_godin", (list.length : Int)⟩

def accionistaUber (txns : List CTx) : Option Award :=
  let list := txns.filter fun t => decide (t.category = .rideshare ∧ t.amount < 0)
  let total := (list.map fun t => |t.amount|).sum
  if total < 200 then none
  else some ⟨"accionista_uber", total⟩

/-- Number of incoming SPEI transfers in the two-day forward window of a
given date (`incoming` in `bancoCentral`; only its length is used). -/
def bcIncomingCount (txns : List CTx) (d : Date) : Nat :=
  (txns.filter fun t =>
    decide (t.category = .spei_transfer ∧ 0 < t.amount ∧
      0 ≤ daysBetween d t.date ∧ daysBetween d t.date ≤ 2)).length

/-- The early-exit scan of `bancoCentral` over the big weekend outflows. -/
def bcLoop (txns : List CTx) : List CTx → Option Award
  | [] => none
  | trig :: rest =>
    if bcIncomingCount txns trig.date < 3 then bcLoop txns rest
    else some ⟨"banco_central", |trig.amount|⟩

def bigWeekendPred (t : CTx) : Bool :=
  decide (t.amount < -1000 ∧ (dow t.date = 5 ∨ dow t.date = 6))

def bancoCentral (txns : List CTx) : Option Award :=
  bcLoop txns (txns.filter bigWeekendPred)

def hoyoNegroEfectivo (txns : List CTx) : Option Award :=
  let list := txns.filter fun t => decide (t.category = .cash_withdrawal ∧ t.amount < 0)
  if list.length < 4 then none
  else some ⟨"hoyo_negro_efectivo", (list.length : Int)⟩

def socioSmartfit (txns : List CTx) : Option Award :=
  let gym := txns.filter fun t => decide (t.category = .subscription_gym)
  let delivery := txns.filter fun t => decide (t.category = .food_delivery ∧ t.amount < 0)
  if gym.length < 1 ∨ delivery.length < 5 then none
  else some ⟨"socio_honorario_smartfit", (delivery.length : Int)⟩

def sindromeMeLoMerezco (txns : List CTx) : Option Award :=
  let qualifying := txns.filter fun t =>
    decide (t.category = .ecommerce ∧ t.amount < -500 ∧
      (dom t.date = 15 ∨ dom t.date = 30 ∨ dom t.date = 31))
  match qualifying with
  | [] => none
  | q :: qs =>
    let biggest := qs.foldl (fun mx t => if t.amount < mx.amount then t else mx) q
    some ⟨"sindrome_me_lo_merezco", |biggest.amount|⟩

def martirComisiones (txns : List CTx) : Option Award :=
  let fees := txns.filter fun t => decide (t.category = .bank_fee ∧ t.amount < 0)
  match fees with
  | [] => none
  | _ :: _ => some ⟨"martir_comisiones", (fees.map fun t => |t.amount|).sum⟩

/-- Sorting of the transactions by date (`localeCompare` on zero-padded date
strings is the lexicographic date order; the sort is stable). -/
def sortTxns (txns : List CTx) : List CTx :=
  stableSortBy (fun a b => dateLt a.date b.date) txns

/-- Net transaction sum of one calendar date (the `netByDate` map). -/
def netOn (l : List CTx) (d : Date) : Int :=
  ((l.filter fun t => decide (t.date = d)).map fun t => t.amount).sum

def critDay (dt : Date) : Bool :=
  decide (dom dt = 13 ∨ dom dt = 14 ∨ dom dt = 28 ∨ dom dt = 29)

/-- Update of the lowest candidate balance: replace only on a strictly lower
balance, so ties keep the first occurrence. -/
def updLow (acc : Option (Int × Date)) (dt : Date) (run : Int) : Option (Int × Date) :=
  match acc with
  | none => some (run, dt)
  | some (b, d0) => if run < b then some (run, dt) else some (b, d0)

/-- The day-by-day balance walk of `sobrevivienteExtremo` (lines 222-237).
`fuel` bounds the number of iterations of the source `while` loop; `none`
marks fuel exhaustion with the loop guard still true, which is unreachable
when the dates are valid. -/
def simLoop (net : Date → Int) (last : Date) :
    Nat → Date → Int → Option (Int × Date) → Option (Option (Int × Date))
  | 0, cur, _, acc => if dateLe cur last then none else some acc
  | fuel + 1, cur, run, acc =>
    if dateLe cur last then
      let run2 := run + net cur
      let acc2 := if critDay cur && decide (run2 < 50) then updLow acc cur run2 else acc
      simLoop net last fuel (nextDay cur) run2 acc2
    else some acc

/-- The balance simulation: lowest candidate balance and its date. -/
def sobrevivienteCore (txns : List CTx) : Option (Option (Int × Date)) :=
  match sortTxns txns with
  | [] => some none
  | t :: rest =>
    let first := t.date
    let last := (rest.getLastD t).date
    simLoop (netOn (t :: rest)) last (dayNumber last - dayNumber first + 1) first 0 none

def sobrevivienteExtremo (txns : List CTx) : Option Award :=
  match txns with
  | [] => none
  | _ :: _ =>
    match sobrevivienteCore txns with
    | some (some (bal, _)) => some ⟨"sobreviviente_extremo", max 0 (50 - bal)⟩
    | _ => none

def EVALUATORS : List (List CTx → Option Award) :=
  [indiceGodin, accionistaUber, bancoCentral, hoyoNegroEfectivo,
   socioSmartfit, sindromeMeLoMerezco, martirComisiones, sobrevivienteExtremo]

/-- The triggered awards in evaluator order, before ranking. -/
def rawAwards (txns : List CTx) : List Award :=
  EVALUATORS.filterMap fun f => f txns

def sortAwards (l : List Award) : List Award :=
  stableSortBy (fun a b => decide (b.trigger_value < a.trigger_value)) l

def calculateAwards (txns : List CTx) : List Award :=
  sortAwards (rawAwards txns)

/- ### Streak detector (`app/page.tsx`, lines 86-117) -/

structure Month where
  y : Nat
  m : Nat
deriving DecidableEq

/-- True when `b` is exactly one calendar month after `a`. -/
def isNextMonth (a b : Month) : Bool :=
  decide ((a.m < 12 ∧ b.m = a.m + 1 ∧ b.y = a.y) ∨ (a.m = 12 ∧ b.m = 1 ∧ b.y = a.y + 1))

structure HistoryRow where
  month : Month
  total_spent : Int
  awards_won : List String
deriving DecidableEq

def wonIn (r : HistoryRow) (id : String) : Bool := r.awards_won.contains id

/-- The backward walk of `findCurrentStreaks` for one award id, expressed as
a recursion over the reversed history; `later` is the previously accepted
(more recent) row. -/
def countBack (id : String) : List HistoryRow → Option HistoryRow → Nat
  | [], _ => 0
  | r :: rest, later =>
    if wonIn r id then
      match later with
      | some l =>
        if isNextMonth r.month l.month then countBack id rest (some r) + 1 else 0
      | none => countBack id rest (some r) + 1
    else 0

def streakCount (history : List HistoryRow) (id : String) : Nat :=
  countBack id history.reverse none

/-- First-occurrence deduplication, as iterating a JavaScript `Set`. -/
def uniqueAux (seen : List String) : List String → List String
  | [] => []
  | a :: rest =>
    if seen.contains a then uniqueAux seen rest
    else a :: uniqueAux (seen ++ [a]) rest

def findCurrentStreaks (history : List HistoryRow) : List (String × Nat) :=
  if history.length < 2 then []
  else
    let allIds := uniqueAux [] (history.flatMap fun r => r.awards_won)
    let streaks := (allIds.map fun id => (id, streakCount history id)).filter
      fun p => decide (2 ≤ p.2)
    stableSortBy (fun a b => decide (b.2 < a.2)) streaks

/- ### Specification-side definitions -/

/-- The closed set of 14 category labels. -/
def allCategories : List Category :=
  [.convenience_store, .rideshare, .food_delivery, .restaurant_cafe,
   .supermarket, .cash_withdrawal, .subscription_gym, .ecommerce,
   .pharmacy_health, .spei_transfer, .bank_fee, .gas_transport,
   .education, .other]

/-- No keyword list of any category matches the lower-cased description. -/
def noKeywordMatch (desc : String) : Bool :=
  PRIORITY.all fun c => !(catMatches (lowerChars desc) c)

/-- Position of an award id in the fixed evaluator order. -/
def evalIdx (id : String) : Nat :=
  if id = "indice_godin" then 0
  else if id = "accionista_uber" then 1
  else if id = "banco_central" then 2
  else if id = "hoyo_negro_efectivo" then 3
  else if id = "socio_honorario_smartfit" then 4
  else if id = "sindrome_me_lo_merezco" then 5
  else if id = "martir_comisiones" then 6
  else if id = "sobreviviente_extremo" then 7
  else 8

/-- An award with the given id is present in the list. -/
def AwardPresent (l : List Award) (id : String) : Prop :=
  ∃ a ∈ l, a.id = id

instance awardPresentDec (l : List Award) (i : String) : Decidable (AwardPresent l i) :=
  List.decidableBEx (fun a : Award => a.id = i) l

/-- Number of convenience-store outflows (the qualifying set of
`indice_godin`). -/
def convOutflows (l : List CTx) : Nat :=
  (l.filter fun t => decide (t.category = .convenience_store ∧ t.amount < 0)).length

/-- A transaction with its category replaced by `other`, all remaining
fields unchanged. -/
def modCat (t : CTx) : CTx := { t with category := .other }

/-- Date and amount of a transaction (the data the balance simulation
depends on). -/
def dateAmt (t : CTx) : Date × Int := (t.date, t.amount)

/-- Every calendar day from `cur` while not past `last`, bounded by fuel. -/
def dayList (last : Date) : Nat → Date → List Date
  | 0, _ => []
  | f + 1, cur => if dateLe cur last then cur :: dayList last f (nextDay cur) else []

/-- Pair each day with the running balance after adding the net sum of that
day, starting from the given balance. -/
def withBalances (net : Date → Int) : List Date → Int → List (Date × Int)
  | [], _ => []
  | d :: ds, run => (d, run + net d) :: withBalances net ds (run + net d)

/-- Candidate day: day-of-month 13, 14, 28 or 29 with balance below 50. -/
def critLow (p : Date × Int) : Bool := critDay p.1 && decide (p.2 < 50)

/-- The candidate days of the balance simulation, in chronological order:
running balance starting at zero over every calendar day from the first to
the last transaction date, filtered to the critical low days. -/
def sobrevCandidates (txns : List CTx) : List (Date × Int) :=
  match sortTxns txns with
  | [] => []
  | t :: rest =>
    let first := t.date
    let last := (rest.getLastD t).date
    (withBalances (netOn (t :: rest))
      (dayList last (dayNumber last - dayNumber first + 1) first) 0).filter critLow

/-- Outflow of magnitude above 1000 dated on a Friday or Saturday. -/
def isQualifyingOutflow (t : CTx) : Bool :=
  decide (t.amount < 0 ∧ 1000 < |t.amount| ∧ (dow t.date = 5 ∨ dow t.date = 6))

/-- A positive SPEI transfer dated within the inclusive window from `d`
through two days after `d`. -/
def speiInWindow (d : Date) (t : CTx) : Bool :=
  decide (t.category = .spei_transfer ∧ 0 < t.amount ∧
    dayNumber d ≤ dayNumber t.date ∧ dayNumber t.date ≤ dayNumber d + 2)

/-- At least 3 positive SPEI transfers fall in the window of the outflow. -/
def bcQualify (txns : List CTx) (t : CTx) : Bool :=
  decide (3 ≤ (txns.filter (speiInWindow t.date)).length)

/-- A run of `n` consecutive-calendar-month summaries ending at the most
recent month, in all of which the award was won. -/
def suffixRun (h : List HistoryRow) (id : String) (n : Nat) : Prop :=
  n ≤ h.length ∧ (∀ r ∈ h.drop (h.length - n), wonIn r id = true) ∧
    (h.drop (h.length - n)).Chain' fun a b => isNextMonth a.month b.month = true

/-- Bounded check mirroring `countBack`: the first `n` entries of a reversed
history are all won and chained month-by-month towards `later`. -/
def okRun (id : String) : List HistoryRow → Option HistoryRow → Nat → Bool
  | _, _, 0 => true
  | [], _, _ + 1 => false
  | r :: rest, later, n + 1 =>
    wonIn r id &&
      (match later with
       | some l => isNextMonth r.month l.month
       | none => true) &&
      okRun id rest (some r) n

/-- Chain check of a reversed history fragment against a later row. -/
def revChainFrom (later : Option HistoryRow) : List HistoryRow → Bool
  | [] => true
  | r :: rest =>
    (match later with
     | some l => isNextMonth r.month l.month
     | none => true) && revChainFrom (some r) rest

/-- The lexicographic date order as a proposition-valued relation. -/
def dateLeP (a b : Date) : Prop := dateLe a b = true

/- ### Concrete example data -/

def exOxxo1 : Transaction := ⟨⟨2025, 6, 2⟩, -150, "OXXO TIENDA 123"⟩

def exOxxo2 : Transaction := ⟨⟨2025, 6, 10⟩, -90, "OXXO GAS STATION"⟩

def exC2a : CTx := ⟨⟨⟨2025, 6, 13⟩, -10, "OXXO A"⟩, .convenience_store⟩

def exC2b : CTx := ⟨⟨⟨2025, 6, 13⟩, -100, "OXXO B"⟩, .convenience_store⟩

/-- `exC2b` with its amount changed from an outflow to an inflow, so that
the convenience-store outflow count drops from 2 to 1. -/
def exC2bFlip : CTx := ⟨⟨⟨2025, 6, 13⟩, 100, "OXXO B"⟩, .convenience_store⟩

def exHist : List HistoryRow :=
  [⟨⟨2025, 4⟩, 0, ["accionista_uber"]⟩,
   ⟨⟨2025, 5⟩, 0, ["accionista_uber"]⟩,
   ⟨⟨2025, 6⟩, 0, ["accionista_uber"]⟩]

def exC4 : CTx := ⟨⟨⟨2025, 6, 13⟩, -10, "GASTO"⟩, .other⟩

def exC6a : CTx := ⟨⟨⟨2025, 6, 14⟩, -60, "A"⟩, .other⟩

def exC6b : CTx := ⟨⟨⟨2025, 6, 13⟩, 20, "B"⟩, .other⟩

/- ### Binary64 arithmetic and the float-valued survival simulation (C6) -/

/-- A dyadic rational `m * 2 ^ e`.  Every finite IEEE-754 binary64 value is
such a number with a significand of at most 53 bits; JavaScript numbers are
binary64 values. -/
structure Dyadic where
  m : Int
  e : Int
deriving DecidableEq

/-- Bit length of a natural number, by halving; the first argument is
descent fuel, and `n` itself always suffices for input `n`. -/
def bitsAux : Nat → Nat → Nat
  | 0, _ => 0
  | fuel + 1, n => if n = 0 then 0 else bitsAux fuel (n / 2) + 1

/-- Bit length: `bits 0 = 0`, `bits 5 = 3`, `bits (2 ^ 53) = 54`. -/
def bits (n : Nat) : Nat := bitsAux n n

/-- Round `m * 2 ^ e` to a 53-bit significand, round to nearest with ties
to even — the IEEE-754 binary64 rounding of an exact dyadic result in the
normal range. -/
def roundDyadic (m : Int) (e : Int) : Dyadic :=
  let n := m.natAbs
  if bits n ≤ 53 then ⟨m, e⟩
  else
    let k := bits n - 53
    let q := n / 2 ^ k
    let r := n % 2 ^ k
    let half := 2 ^ (k - 1)
    let q2 := if half < r ∨ (r = half ∧ q % 2 = 1) then q + 1 else q
    ⟨if m < 0 then -(q2 : Int) else (q2 : Int), e + k⟩

/-- IEEE-754 binary64 addition of two in-range values: the exact dyadic sum
at the lower exponent, correctly rounded. -/
def fadd (a b : Dyadic) : Dyadic :=
  let e := min a.e b.e
  roundDyadic (a.m * 2 ^ (a.e - e).toNat + b.m * 2 ^ (b.e - e).toNat) e

/-- Binary64 negation is exact. -/
def fneg (a : Dyadic) : Dyadic := ⟨-a.m, a.e⟩

def fsub (a b : Dyadic) : Dyadic := fadd a (fneg b)

/-- Strict comparison of two dyadic values (float `<` compares the real
values of finite operands). -/
def dlt (a b : Dyadic) : Bool :=
  decide (a.m * 2 ^ (a.e - min a.e b.e).toNat < b.m * 2 ^ (b.e - min a.e b.e).toNat)

def fzero : Dyadic := ⟨0, 0⟩

/-- The literal `50` as a binary64 value. -/
def f50 : Dyadic := ⟨50, 0⟩

/-- `Math.max(0, x)` on finite floats. -/
def fmax0 (x : Dyadic) : Dyadic := if dlt x fzero then fzero else x

/-- A transaction with its amount kept as a binary64 value; the survival
evaluator reads only the date and the amount of each transaction. -/
structure DTx where
  date : Date
  amount : Dyadic
deriving DecidableEq

/-- The date sort of `sobrevivienteExtremo`, on float transactions. -/
def sortTxnsF (txns : List DTx) : List DTx :=
  stableSortBy (fun a b => dateLt a.date b.date) txns

/-- Net amount of one calendar date: the `netByDate` map is filled by `+`
over the sorted list, so the amounts of one date are added by binary64
addition in list order. -/
def netOnF (l : List DTx) (d : Date) : Dyadic :=
  (l.filter fun t => decide (t.date = d)).foldl (fun s t => fadd s t.amount) fzero

/-- Update of the lowest candidate balance, on float balances. -/
def updLowF (acc : Option (Dyadic × Date)) (dt : Date) (run : Dyadic) :
    Option (Dyadic × Date) :=
  match acc with
  | none => some (run, dt)
  | some (b, d0) => if dlt run b then some (run, dt) else some (b, d0)

/-- The day-by-day balance walk of `sobrevivienteExtremo` with binary64
balance arithmetic, fuelled as `simLoop`. -/
def simLoopF (net : Date → Dyadic) (last : Date) :
    Nat → Date → Dyadic → Option (Dyadic × Date) → Option (Option (Dyadic × Date))
  | 0, cur, _, acc => if dateLe cur last then none else some acc
  | fuel + 1, cur, run, acc =>
    if dateLe cur last then
      let run2 := fadd run (net cur)
      let acc2 := if critDay cur && dlt run2 f50 then updLowF acc cur run2 else acc
      simLoopF net last fuel (nextDay cur) run2 acc2
    else some acc

/-- The balance simulation with binary64 arithmetic: lowest candidate
balance and its date. -/
def sobrevivienteCoreF (txns : List DTx) : Option (Option (Dyadic × Date)) :=
  match sortTxnsF txns with
  | [] => some none
  | t :: rest =>
    let first := t.date
    let last := (rest.getLastD t).date
    simLoopF (netOnF (t :: rest)) last (dayNumber last - dayNumber first + 1) first fzero none

/-- `sobrevivienteExtremo` with binary64 arithmetic: id and trigger value
`Math.max(0, 50 - lowestBalance)`. -/
def sobrevivienteExtremoF (txns : List DTx) : Option (String × Dyadic) :=
  match txns with
  | [] => none
  | _ :: _ =>
    match sobrevivienteCoreF txns with
    | some (some (bal, _)) => some ("sobreviviente_extremo", fmax0 (fsub f50 bal))
    | _ => none

/-- `0.1` as a binary64 value: `3602879701896397 * 2 ^ (-55)`. -/
def d01 : Dyadic := ⟨3602879701896397, -55⟩

/-- `0.2` as a binary64 value. -/
def d02 : Dyadic := ⟨3602879701896397, -54⟩

/-- `0.3` as a binary64 value. -/
def d03 : Dyadic := ⟨5404319552844595, -54⟩

/-- Three deposits of `0.1`, `0.2` and `0.3` on one critical day of month. -/
def exC6F : List DTx :=
  [⟨⟨2025, 6, 13⟩, d01⟩, ⟨⟨2025, 6, 13⟩, d02⟩, ⟨⟨2025, 6, 13⟩, d03⟩]

/- ### Generic lemmas about the stable sort -/

theorem insSort_perm (lt : α → α → Bool) (a : α) :
    ∀ l : List α, (insSort lt a l).Perm (a :: l)
  | [] => List.Perm.refl _
  | b :: rest => by
    simp only [insSort]
    split
    · exact List.Perm.refl _
    · exact (List.Perm.cons b (insSort_perm lt a rest)).trans (List.Perm.swap a b rest)

theorem foldl_insSort_perm (lt : α → α → Bool) :
    ∀ (l acc : List α), (l.foldl (fun acc x => insSort lt x acc) acc).Perm (acc ++ l)
  | [], acc => by simp
  | x :: l, acc => by
    simp only [List.foldl_cons]
    refine (foldl_insSort_perm lt l (insSort lt x acc)).trans ?_
    exact (((insSort_perm lt x acc).append_right l).trans List.perm_middle.symm)

theorem stableSortBy_perm (lt : α → α → Bool) (l : List α) :
    (stableSortBy lt l).Perm l := by
  simpa [stableSortBy] using foldl_insSort_perm lt l []

theorem mem_insSort (lt : α → α → Bool) {a b : α} {l : List α} :
    b ∈ insSort lt a l ↔ b = a ∨ b ∈ l := by
  rw [(insSort_perm lt a l).mem_iff]; simp

theorem pairwise_trivial : ∀ l : List α, l.Pairwise fun _ _ => True
  | [] => List.Pairwise.nil
  | _ :: l => List.Pairwise.cons (fun _ _ => trivial) (pairwise_trivial l)

theorem insSort_pairwise (lt : α → α → Bool) (S : α → α → Prop)
    (hasymm : ∀ a b, lt a b = true → lt b a = false)
    (htrans : ∀ a b c, lt a b = true → lt b c = true → lt a c = true)
    (hconn : ∀ a b c, lt a b = true → lt c b = false → lt a c = true)
    (x : α) :
    ∀ acc : List α,
      acc.Pairwise (fun a b => lt b a = false ∧ (lt a b = false → S a b)) →
      (∀ b ∈ acc, S b x) →
      (insSort lt x acc).Pairwise fun a b => lt b a = false ∧ (lt a b = false → S a b)
  | [], _, _ => List.Pairwise.cons (by simp) List.Pairwise.nil
  | b :: rest, hacc, hS => by
    rw [List.pairwise_cons] at hacc
    obtain ⟨hb, hrest⟩ := hacc
    simp only [insSort]
    split
    · next hlt =>
      refine List.Pairwise.cons ?_ (List.Pairwise.cons hb hrest)
      intro c hc
      rcases List.mem_cons.mp hc with rfl | hc
      · exact ⟨hasymm _ _ hlt, fun hfalse => absurd hlt (by simp [hfalse])⟩
      · refine ⟨?_, fun hfalse => ?_⟩
        · rcases h2 : lt c x with _ | _
          · rfl
          · exact absurd (htrans c x b h2 hlt) (by simp [(hb c hc).1])
        · exact absurd (hconn x b c hlt (hb c hc).1) (by simp [hfalse])
    · next hlt =>
      have hx : lt x b = false := by
        rcases h2 : lt x b with _ | _
        · rfl
        · exact absurd h2 hlt
      refine List.Pairwise.cons ?_
        (insSort_pairwise lt S hasymm htrans hconn x rest hrest
          fun c hc => hS c (List.mem_cons_of_mem _ hc))
      intro c hc
      rcases (mem_insSort lt).mp hc with rfl | hc
      · exact ⟨hx, fun _ => hS b (List.mem_cons_self ..)⟩
      · exact hb c hc

theorem foldl_insSort_pairwise (lt : α → α → Bool) (S : α → α → Prop)
    (hasymm : ∀ a b, lt a b = true → lt b a = false)
    (htrans : ∀ a b c, lt a b = true → lt b c = true → lt a c = true)
    (hconn : ∀ a b c, lt a b = true → lt c b = false → lt a c = true) :
    ∀ (l acc : List α),
      acc.Pairwise (fun a b => lt b a = false ∧ (lt a b = false → S a b)) →
      l.Pairwise S →
      (∀ x ∈ l, ∀ b ∈ acc, S b x) →
      (l.foldl (fun acc x => insSort lt x acc) acc).Pairwise
        fun a b => lt b a = false ∧ (lt a b = false → S a b)
  | [], acc, hacc, _, _ => hacc
  | x :: l, acc, hacc, hl, hcross => by
    rw [List.pairwise_cons] at hl
    simp only [List.foldl_cons]
    refine foldl_insSort_pairwise lt S hasymm htrans hconn l (insSort lt x acc)
      (insSort_pairwise lt S hasymm htrans hconn x acc hacc
        fun b hb => hcross x (List.mem_cons_self ..) b hb) hl.2 ?_
    intro y hy b hb
    rcases (mem_insSort lt).mp hb with rfl | hb
    · exact hl.1 y hy
    · exact hcross y (List.mem_cons_of_mem _ hy) b hb

theorem stableSortBy_pairwise (lt : α → α → Bool) (S : α → α → Prop)
    (hasymm : ∀ a b, lt a b = true → lt b a = false)
    (htrans : ∀ a b c, lt a b = true → lt b c = true → lt a c = true)
    (hconn : ∀ a b c, lt a b = true → lt c b = false → lt a c = true)
    (l : List α) (hl : l.Pairwise S) :
    (stableSortBy lt l).Pairwise fun a b => lt b a = false ∧ (lt a b = false → S a b) :=
  foldl_insSort_pairwise lt S hasymm htrans hconn l [] List.Pairwise.nil hl
    (by intro x _ b hb; cases hb)

theorem stableSortBy_sorted (lt : α → α → Bool)
    (hasymm : ∀ a b, lt a b = true → lt b a = false)
    (htrans : ∀ a b c, lt a b = true → lt b c = true → lt a c = true)
    (hconn : ∀ a b c, lt a b = true → lt c b = false → lt a c = true)
    (l : List α) :
    (stableSortBy lt l).Pairwise fun a b => lt b a = false :=
  (stableSortBy_pairwise lt (fun _ _ => True) hasymm htrans hconn l
    (pairwise_trivial l)).imp fun h => h.1

/- ### Order lemmas for the date comparison -/

theorem dateLt_asymm {a b : Date} (h : dateLt a b = true) : dateLt b a = false := by
  simp only [dateLt, decide_eq_true_eq, decide_eq_false_iff_not] at h ⊢
  omega

theorem dateLt_trans {a b c : Date} (h1 : dateLt a b = true) (h2 : dateLt b c = true) :
    dateLt a c = true := by
  simp only [dateLt, decide_eq_true_eq] at h1 h2 ⊢
  omega

theorem dateLt_conn {a b c : Date} (h1 : dateLt a b = true) (h2 : dateLt c b = false) :
    dateLt a c = true := by
  simp only [dateLt, decide_eq_true_eq, decide_eq_false_iff_not] at h1 h2 ⊢
  omega

theorem dateLe_of_not_lt {a b : Date} (h : dateLt b a = false) : dateLe a b = true := by
  simp only [dateLt, dateLe, decide_eq_true_eq, decide_eq_false_iff_not] at h ⊢
  omega

theorem dateLe_rfl {a : Date} : dateLe a a = true := by
  simp [dateLe]

theorem dateLe_antisymm {a b : Date} (h1 : dateLe a b = true) (h2 : dateLe b a = true) :
    a = b := by
  obtain ⟨ay, am, ad⟩ := a
  obtain ⟨by2, bm, bd⟩ := b
  simp only [dateLe, decide_eq_true_eq] at h1 h2
  simp only [Date.mk.injEq]
  omega

instance : IsAntisymm Date dateLeP := ⟨fun _ _ h1 h2 => dateLe_antisymm h1 h2⟩

/- ### The categorizer: claims C8, C1, C7 -/

/-- C8: on the two-transaction example, `"OXXO GAS STATION"` categorizes as
gas transport while `"OXXO TIENDA 123"` categorizes as convenience store
(gas transport is tested before convenience store in the priority order),
and with a single convenience-store outflow the indice godin award does not
trigger. -/
theorem oxxo_example :
    categorize (exOxxo2.description) = Category.gas_transport ∧
    categorize (exOxxo1.description) = Category.convenience_store ∧
    PRIORITY.indexOf Category.gas_transport < PRIORITY.indexOf Category.convenience_store ∧
    indiceGodin (categorizeTransactions [exOxxo1, exOxxo2]) = none := by
  exact ⟨by decide, by decide, by decide, by decide⟩

theorem categorizeFrom_no_match (d : List Char) :
    ∀ cats : List Category, (∀ c ∈ cats, catMatches d c = false) →
      categorizeFrom d cats = Category.other
  | [], _ => rfl
  | c :: cats, h => by
    have hc := h c (List.mem_cons_self ..)
    have hrest := categorizeFrom_no_match d cats fun x hx => h x (List.mem_cons_of_mem _ hx)
    simp only [categorizeFrom]
    split
    · exact hrest
    · simp [hc, hrest]

/-- C1: for every description, `categorize` returns one of the 14 fixed
labels (and, being a total function, never throws); when no keyword of any
category matches the lower-cased description, the result is `other`. -/
theorem categorize_total (desc : String) :
    categorize desc ∈ allCategories ∧
      (noKeywordMatch desc = true → categorize desc = Category.other) := by
  constructor
  · cases h : categorize desc <;> simp [allCategories]
  · intro h
    simp only [noKeywordMatch, List.all_eq_true, Bool.not_eq_eq_eq_not, Bool.not_true] at h
    exact categorizeFrom_no_match (lowerChars desc) PRIORITY h

/-- Witness for C1 at the empty and at a whitespace-only description. -/
theorem categorize_total_witness :
    categorize ("") = Category.other ∧ categorize ("   ") = Category.other :=
  ⟨(categorize_total ("")).2 (by decide), (categorize_total ("   ")).2 (by decide)⟩

theorem categorizeFrom_ne_rideshare (d : List Char) (h : rideshareExcluded d = true) :
    ∀ cats : List Category, categorizeFrom d cats ≠ Category.rideshare
  | [] => by simp [categorizeFrom]
  | c :: cats => by
    simp only [categorizeFrom]
    split
    · exact categorizeFrom_ne_rideshare d h cats
    · next hcond =>
      split
      · intro hc
        exact hcond ⟨hc, h⟩
      · exact categorizeFrom_ne_rideshare d h cats

/-- C7: a description whose lower-cased form contains one of the ride-share
exclusion tokens never categorizes as rideshare; the scan moves on to the
lower-priority categories instead. -/
theorem categorize_rideshare_excluded (desc : String)
    (h : containsSub (lowerChars ("eats")) (lowerChars desc) = true ∨
         containsSub (lowerChars ("food")) (lowerChars desc) = true ∨
         containsSub (lowerChars ("rappi")) (lowerChars desc) = true) :
    categorize desc ≠ Category.rideshare := by
  refine categorizeFrom_ne_rideshare (lowerChars desc) ?_ PRIORITY
  simp only [rideshareExcluded, Bool.or_eq_true]
  tauto

/-- Witness for C7: a food-delivery charge embedding the ride-share brand. -/
theorem categorize_rideshare_excluded_witness :
    categorize ("UBER EATS MX") ≠ Category.rideshare :=
  categorize_rideshare_excluded ("UBER EATS MX") (Or.inl (by decide))

/- ### Calendar arithmetic lemmas -/

theorem dateLt_mk {ay am ad by2 bm bd : Nat} :
    dateLt ⟨ay, am, ad⟩ ⟨by2, bm, bd⟩ =
      decide (ay < by2 ∨ (ay = by2 ∧ (am < bm ∨ (am = bm ∧ ad < bd)))) := rfl

theorem isLeap_iff {y : Nat} :
    isLeap y = true ↔ ((y % 4 = 0 ∧ ¬ y % 100 = 0) ∨ y % 400 = 0) := by
  simp [isLeap]

theorem daysInMonth_pos (y m : Nat) : 1 ≤ daysInMonth y m := by
  unfold daysInMonth
  split_ifs <;> omega

theorem daysInMonth_le (y m : Nat) : daysInMonth y m ≤ 31 := by
  unfold daysInMonth
  split_ifs <;> omega

theorem daysBeforeMonth_succ (y : Nat) :
    ∀ m : Nat, 1 ≤ m → daysBeforeMonth y (m + 1) = daysBeforeMonth y m + daysInMonth y m
  | 0, h => absurd h (by omega)
  | _ + 1, _ => rfl

theorem daysBeforeMonth_le_succ (y : Nat) : ∀ m : Nat, daysBeforeMonth y m ≤ daysBeforeMonth y (m + 1)
  | 0 => by simp [daysBeforeMonth]
  | m + 1 => by rw [daysBeforeMonth_succ y (m + 1) (by omega)]; omega

theorem daysBeforeMonth_mono (y : Nat) {m1 m2 : Nat} (h : m1 ≤ m2) :
    daysBeforeMonth y m1 ≤ daysBeforeMonth y m2 := by
  induction m2 with
  | zero => simp_all
  | succ k ih =>
    rcases Nat.lt_or_ge m1 (k + 1) with h2 | h2
    · exact le_trans (ih (by omega)) (daysBeforeMonth_le_succ y k)
    · have : m1 = k + 1 := by omega
      subst this
      exact le_refl _

theorem daysBeforeMonth_12 (y : Nat) :
    daysBeforeMonth y 12 = 334 + (if isLeap y then 1 else 0) := by
  by_cases h : isLeap y = true <;> simp [daysBeforeMonth, daysInMonth, h]

theorem daysBeforeMonth_13 (y : Nat) :
    daysBeforeMonth y 13 = 365 + (if isLeap y then 1 else 0) := by
  by_cases h : isLeap y = true <;> simp [daysBeforeMonth, daysInMonth, h]

theorem dayNumber_mk (y m d : Nat) :
    dayNumber ⟨y, m, d⟩ = yearDays (y - 1) + daysBeforeMonth y m + (d - 1) := rfl

theorem yearDays_succ_leap (k : Nat) (h : isLeap (k + 1) = true) :
    yearDays (k + 1) = yearDays k + 366 := by
  have h2 := isLeap_iff.mp h
  unfold yearDays
  omega

theorem yearDays_succ_non (k : Nat) (h : isLeap (k + 1) = false) :
    yearDays (k + 1) = yearDays k + 365 := by
  have h2 : ¬ (((k + 1) % 4 = 0 ∧ ¬ (k + 1) % 100 = 0) ∨ (k + 1) % 400 = 0) := by
    intro hc
    have h3 := isLeap_iff.mpr hc
    rw [h] at h3
    exact Bool.noConfusion h3
  unfold yearDays
  omega

theorem yearDays_le_succ (k : Nat) : yearDays k ≤ yearDays (k + 1) := by
  cases hL : isLeap (k + 1) with
  | false => rw [yearDays_succ_non k hL]; omega
  | true => rw [yearDays_succ_leap k hL]; omega

theorem yearDays_mono {k1 k2 : Nat} (h : k1 ≤ k2) : yearDays k1 ≤ yearDays k2 := by
  induction k2 with
  | zero => simp_all
  | succ k ih =>
    rcases Nat.lt_or_ge k1 (k + 1) with h2 | h2
    · exact le_trans (ih (by omega)) (yearDays_le_succ k)
    · have : k1 = k + 1 := by omega
      subst this
      exact le_refl _

theorem validDate_fields {dt : Date} (h : validDate dt = true) :
    1 ≤ dt.y ∧ 1 ≤ dt.m ∧ dt.m ≤ 12 ∧ 1 ≤ dt.d ∧ dt.d ≤ daysInMonth dt.y dt.m := by
  simpa [validDate] using h

theorem validDate_nextDay {dt : Date} (h : validDate dt = true) :
    validDate (nextDay dt) = true := by
  obtain ⟨hy, hm, hm2, hd, hd2⟩ := validDate_fields h
  unfold nextDay
  split_ifs with h1 h2
  · simp only [validDate, decide_eq_true_eq]
    exact ⟨hy, hm, hm2, by omega, by omega⟩
  · simp only [validDate, decide_eq_true_eq]
    exact ⟨hy, by omega, by omega, by omega, daysInMonth_pos ..⟩
  · simp only [validDate, decide_eq_true_eq]
    exact ⟨by omega, by omega, by omega, by omega, daysInMonth_pos ..⟩

theorem dateLt_nextDay {dt : Date} (h : validDate dt = true) :
    dateLt dt (nextDay dt) = true := by
  obtain ⟨y, m, d⟩ := dt
  obtain ⟨hy, hm, hm2, hd, hd2⟩ := validDate_fields h
  simp only at hy hm hm2 hd hd2
  unfold nextDay
  simp only
  split_ifs with h1 h2
  · rw [dateLt_mk, decide_eq_true_eq]
    omega
  · rw [dateLt_mk, decide_eq_true_eq]
    omega
  · rw [dateLt_mk, decide_eq_true_eq]
    omega

theorem dayNumber_nextDay {dt : Date} (h : validDate dt = true) :
    dayNumber (nextDay dt) = dayNumber dt + 1 := by
  obtain ⟨y, m, d⟩ := dt
  obtain ⟨hy, hm, hm2, hd, hd2⟩ := validDate_fields h
  simp only at hy hm hm2 hd hd2
  unfold nextDay
  simp only
  split_ifs with h1 h2
  · simp only [dayNumber_mk]
    omega
  · have hd3 : d = daysInMonth y m := by omega
    simp only [dayNumber_mk]
    rw [daysBeforeMonth_succ y m hm]
    omega
  · have hm3 : m = 12 := by omega
    have hd4 : d = 31 := by
      subst hm3
      have : daysInMonth y 12 = 31 := by norm_num [daysInMonth]
      omega
    subst hm3
    subst hd4
    simp only [dayNumber_mk, daysBeforeMonth_12]
    have hy2 : y - 1 + 1 = y := by omega
    have hone : daysBeforeMonth (y + 1) 1 = 0 := rfl
    rw [hone, Nat.add_sub_cancel]
    cases hL : isLeap y with
    | false =>
      have hstep := yearDays_succ_non (y - 1) (by rw [hy2]; exact hL)
      rw [hy2] at hstep
      simp [hL, hstep]
    | true =>
      have hstep := yearDays_succ_leap (y - 1) (by rw [hy2]; exact hL)
      rw [hy2] at hstep
      simp [hL, hstep]

theorem dayNumber_within_year {y m d : Nat} (hm : 1 ≤ m) (hm2 : m ≤ 12) (hd : 1 ≤ d)
    (hd2 : d ≤ daysInMonth y m) :
    daysBeforeMonth y m + (d - 1) ≤ 364 + (if isLeap y then 1 else 0) := by
  have h1 : daysBeforeMonth y m + daysInMonth y m = daysBeforeMonth y (m + 1) :=
    (daysBeforeMonth_succ y m hm).symm
  have h2 : daysBeforeMonth y (m + 1) ≤ daysBeforeMonth y 13 :=
    daysBeforeMonth_mono y (by omega)
  rw [daysBeforeMonth_13] at h2
  omega

theorem dayNumber_lt {a b : Date} (ha : validDate a = true) (hb : validDate b = true)
    (h : dateLt a b = true) : dayNumber a < dayNumber b := by
  obtain ⟨ay, am, ad⟩ := a
  obtain ⟨by2, bm, bd⟩ := b
  obtain ⟨hay, ham, ham2, had, had2⟩ := validDate_fields ha
  obtain ⟨hby, hbm, hbm2, hbd, hbd2⟩ := validDate_fields hb
  simp only at hay ham ham2 had had2 hby hbm hbm2 hbd hbd2
  simp only [dateLt, decide_eq_true_eq] at h
  simp only [dayNumber_mk]
  rcases h with hy | ⟨hy, hmlt | ⟨hmeq, hdlt⟩⟩
  · -- strictly later year
    have hbound := dayNumber_within_year ham ham2 had had2
    have hya : ay - 1 + 1 = ay := by omega
    have hmono : yearDays ay ≤ yearDays (by2 - 1) := yearDays_mono (by omega)
    cases hL : isLeap ay with
    | false =>
      have hstep := yearDays_succ_non (ay - 1) (by rw [hya]; exact hL)
      rw [hya] at hstep
      simp [hL] at hbound
      omega
    | true =>
      have hstep := yearDays_succ_leap (ay - 1) (by rw [hya]; exact hL)
      rw [hya] at hstep
      simp [hL] at hbound
      omega
  · -- same year, strictly later month
    subst hy
    have h1 : daysBeforeMonth ay am + daysInMonth ay am = daysBeforeMonth ay (am + 1) :=
      (daysBeforeMonth_succ ay am ham).symm
    have h2 : daysBeforeMonth ay (am + 1) ≤ daysBeforeMonth ay bm :=
      daysBeforeMonth_mono ay (by omega)
    omega
  · -- same year and month, strictly later day
    subst hy
    subst hmeq
    omega

theorem dateLe_iff {a b : Date} : dateLe a b = true ↔ dateLt a b = true ∨ a = b := by
  obtain ⟨ay, am, ad⟩ := a
  obtain ⟨by2, bm, bd⟩ := b
  simp only [dateLt, dateLe, decide_eq_true_eq, Date.mk.injEq]
  omega

theorem dayNumber_le {a b : Date} (ha : validDate a = true) (hb : validDate b = true)
    (h : dateLe a b = true) : dayNumber a ≤ dayNumber b := by
  rcases dateLe_iff.mp h with h2 | rfl
  · exact le_of_lt (dayNumber_lt ha hb h2)
  · exact le_refl _

/- ### Termination of the balance walk -/

theorem simLoop_ne_none (net : Date → Int) (last : Date) (hlast : validDate last = true) :
    ∀ (fuel : Nat) (cur : Date) (run : Int) (acc : Option (Int × Date)),
      validDate cur = true →
      (dateLe cur last = true → dayNumber last - dayNumber cur < fuel) →
      simLoop net last fuel cur run acc ≠ none
  | 0, cur, run, acc, hcur, hfuel => by
    simp only [simLoop]
    split
    · next hg => exact absurd (hfuel hg) (by omega)
    · simp
  | fuel + 1, cur, run, acc, hcur, hfuel => by
    simp only [simLoop]
    split
    · next hg =>
      refine simLoop_ne_none net last hlast fuel (nextDay cur) _ _ (validDate_nextDay hcur) ?_
      intro hg2
      have h1 := dayNumber_nextDay hcur
      have h2 := dayNumber_le (validDate_nextDay hcur) hlast hg2
      have h3 := hfuel hg
      omega
    · simp

theorem sortTxns_perm (txns : List CTx) : (sortTxns txns).Perm txns := by
  unfold sortTxns
  exact stableSortBy_perm _ txns

theorem sortTxns_sorted (txns : List CTx) :
    (sortTxns txns).Pairwise fun a b => dateLt b.date a.date = false := by
  unfold sortTxns
  refine stableSortBy_sorted (fun a b => dateLt a.date b.date) ?_ ?_ ?_ txns
  · intro a b h
    exact dateLt_asymm h
  · intro a b c h1 h2
    exact dateLt_trans h1 h2
  · intro a b c h1 h2
    exact dateLt_conn h1 h2

theorem sortTxns_head_le_last {txns : List CTx} {t : CTx} {rest : List CTx}
    (hs : sortTxns txns = t :: rest) :
    dateLe t.date ((rest.getLastD t).date) = true := by
  have hsorted := sortTxns_sorted txns
  rw [hs, List.pairwise_cons] at hsorted
  rcases List.mem_cons.mp (List.getLastD_mem_cons rest t) with h | h
  · rw [h]; exact dateLe_rfl
  · exact dateLe_of_not_lt (hsorted.1 _ h)

/-- All transactions of the sorted list have valid dates when those of the
input do. -/
theorem sortTxns_valid {txns : List CTx} (hval : ∀ t ∈ txns, validDate t.date = true) :
    ∀ t ∈ sortTxns txns, validDate t.date = true :=
  fun t ht => hval t ((sortTxns_perm txns).mem_iff.mp ht)

theorem sortTxns_ne_nil {txns : List CTx} (h : txns ≠ []) : sortTxns txns ≠ [] := by
  intro hc
  have := (sortTxns_perm txns).length_eq
  rw [hc] at this
  exact h (List.length_eq_zero.mp this.symm)

/-- The fuel of the embedded balance walk suffices on valid dates: the loop
always reaches its exit condition. -/
theorem sobrevivienteCore_ne_none {txns : List CTx} (hne : txns ≠ [])
    (hval : ∀ t ∈ txns, validDate t.date = true) :
    sobrevivienteCore txns ≠ none := by
  unfold sobrevivienteCore
  cases hs : sortTxns txns with
  | nil => exact absurd hs (sortTxns_ne_nil hne)
  | cons t rest =>
    have hvalS := sortTxns_valid hval
    rw [hs] at hvalS
    have hfirst : validDate t.date = true := hvalS t (List.mem_cons_self ..)
    have hlastM := List.getLastD_mem_cons rest t
    have hlast : validDate ((rest.getLastD t).date) = true := hvalS _ hlastM
    refine simLoop_ne_none _ _ hlast _ _ _ _ hfirst ?_
    intro _
    omega

/-- C10: `nextDay` maps every valid calendar date to a valid, strictly
lexicographically greater date (month ends, year ends and leap days roll
over correctly, the civil day index advances by exactly one), hence the
day-by-day balance walk of `sobrevivienteExtremo` from the earliest to the
latest transaction date terminates: the embedded fuel never runs out. -/
theorem nextDay_walk_terminates :
    (∀ dt : Date, validDate dt = true →
      validDate (nextDay dt) = true ∧ dateLt dt (nextDay dt) = true ∧
        dayNumber (nextDay dt) = dayNumber dt + 1) ∧
    ∀ txns : List CTx, txns ≠ [] → (∀ t ∈ txns, validDate t.date = true) →
      sobrevivienteCore txns ≠ none := by
  constructor
  · intro dt h
    exact ⟨validDate_nextDay h, dateLt_nextDay h, dayNumber_nextDay h⟩
  · intro txns hne hval
    exact sobrevivienteCore_ne_none hne hval

/-- Witness for C10 at the leap day of 2024 and at a one-element list. -/
theorem nextDay_walk_terminates_witness :
    (validDate (nextDay ⟨2024, 2, 28⟩) = true ∧
      dateLt ⟨2024, 2, 28⟩ (nextDay ⟨2024, 2, 28⟩) = true ∧
      dayNumber (nextDay ⟨2024, 2, 28⟩) = dayNumber ⟨2024, 2, 28⟩ + 1) ∧
    sobrevivienteCore [exC4] ≠ none :=
  ⟨nextDay_walk_terminates.1 ⟨2024, 2, 28⟩ (by decide),
   nextDay_walk_terminates.2 [exC4] (by decide) (by decide)⟩

/- ### Banco central: claim C5 -/

theorem bigWeekendPred_eq (t : CTx) : bigWeekendPred t = isQualifyingOutflow t := by
  simp only [bigWeekendPred, isQualifyingOutflow]
  rw [decide_eq_decide]
  constructor
  · intro ⟨h1, h2⟩
    have habs : |t.amount| = -t.amount := abs_of_neg (by omega)
    exact ⟨by omega, by rw [habs]; omega, h2⟩
  · intro ⟨h1, h2, h3⟩
    have habs : |t.amount| = -t.amount := abs_of_neg h1
    rw [habs] at h2
    exact ⟨by omega, h3⟩

theorem bcIncomingCount_eq (txns : List CTx) (d : Date) :
    bcIncomingCount txns d = (txns.filter (speiInWindow d)).length := by
  unfold bcIncomingCount
  congr 1
  apply List.filter_congr
  intro t _
  unfold speiInWindow
  rw [decide_eq_decide]
  unfold daysBetween
  constructor
  · intro ⟨h1, h2, h3, h4⟩
    exact ⟨h1, h2, by omega, by omega⟩
  · intro ⟨h1, h2, h3, h4⟩
    exact ⟨h1, h2, by omega, by omega⟩

theorem bcLoop_eq_find (txns : List CTx) :
    ∀ l : List CTx,
      bcLoop txns l =
        (l.find? (bcQualify txns)).map fun t => Award.mk ("banco_central") |t.amount|
  | [] => rfl
  | trig :: rest => by
    simp only [bcLoop, List.find?]
    cases hq : bcQualify txns trig with
    | true =>
      have h3 : ¬ bcIncomingCount txns trig.date < 3 := by
        rw [bcIncomingCount_eq]
        unfold bcQualify at hq
        rw [decide_eq_true_eq] at hq
        omega
      simp [h3]
    | false =>
      have h3 : bcIncomingCount txns trig.date < 3 := by
        rw [bcIncomingCount_eq]
        unfold bcQualify at hq
        have := of_decide_eq_false hq
        omega
      simp [h3]
      exact bcLoop_eq_find txns rest

/-- C5: `bancoCentral` scans, in the original order, the outflows with
magnitude above 1000 dated on a Friday or Saturday, and triggers on the
first one whose inclusive two-day forward window holds at least 3 positive
SPEI transfers, with the trigger value equal to that outflow magnitude;
later qualifying outflows are ignored and the award does not trigger when
no outflow qualifies. -/
theorem bancoCentral_first_match (txns : List CTx) :
    bancoCentral txns =
      ((txns.filter isQualifyingOutflow).find? (bcQualify txns)).map
        (fun t => Award.mk ("banco_central") |t.amount|) ∧
    (bancoCentral txns = none ↔
      ∀ t ∈ txns.filter isQualifyingOutflow, bcQualify txns t = false) := by
  have h1 : txns.filter bigWeekendPred = txns.filter isQualifyingOutflow :=
    List.filter_congr fun t _ => bigWeekendPred_eq t
  have h2 : bancoCentral txns =
      ((txns.filter isQualifyingOutflow).find? (bcQualify txns)).map
        (fun t => Award.mk ("banco_central") |t.amount|) := by
    unfold bancoCentral
    rw [h1]
    exact bcLoop_eq_find txns _
  refine ⟨h2, ?_⟩
  rw [h2]
  constructor
  · intro h t ht
    rcases hf : (txns.filter isQualifyingOutflow).find? (bcQualify txns) with _ | u
    · rcases hq : bcQualify txns t with _ | _
      · rfl
      · exact absurd (List.find?_eq_none.mp hf t ht) (by simp [hq])
    · rw [hf] at h
      exact Option.noConfusion h
  · intro h
    rcases hf : (txns.filter isQualifyingOutflow).find? (bcQualify txns) with _ | u
    · rfl
    · have hmem := List.mem_of_find?_eq_some hf
      have hq := List.find?_some hf
      rw [h u hmem] at hq
      exact Bool.noConfusion hq

/- ### Ranking: claim C9 -/

theorem indiceGodin_id {txns : List CTx} {a : Award} (h : indiceGodin txns = some a) :
    a.id = "indice_godin" := by
  simp only [indiceGodin] at h
  split at h
  · exact Option.noConfusion h
  · rw [Option.some.injEq] at h
    subst h
    rfl

theorem accionistaUber_id {txns : List CTx} {a : Award} (h : accionistaUber txns = some a) :
    a.id = "accionista_uber" := by
  simp only [accionistaUber] at h
  split at h
  · exact Option.noConfusion h
  · rw [Option.some.injEq] at h
    subst h
    rfl

theorem bcLoop_id {txns : List CTx} {a : Award} :
    ∀ l : List CTx, bcLoop txns l = some a → a.id = "banco_central"
  | [], h => Option.noConfusion h
  | trig :: rest, h => by
    simp only [bcLoop] at h
    split at h
    · exact bcLoop_id rest h
    · rw [Option.some.injEq] at h
      subst h
      rfl

theorem bancoCentral_id {txns : List CTx} {a : Award} (h : bancoCentral txns = some a) :
    a.id = "banco_central" :=
  bcLoop_id _ h

theorem hoyoNegroEfectivo_id {txns : List CTx} {a : Award}
    (h : hoyoNegroEfectivo txns = some a) : a.id = "hoyo_negro_efectivo" := by
  simp only [hoyoNegroEfectivo] at h
  split at h
  · exact Option.noConfusion h
  · rw [Option.some.injEq] at h
    subst h
    rfl

theorem socioSmartfit_id {txns : List CTx} {a : Award} (h : socioSmartfit txns = some a) :
    a.id = "socio_honorario_smartfit" := by
  simp only [socioSmartfit] at h
  split at h
  · exact Option.noConfusion h
  · rw [Option.some.injEq] at h
    subst h
    rfl

theorem sindromeMeLoMerezco_id {txns : List CTx} {a : Award}
    (h : sindromeMeLoMerezco txns = some a) : a.id = "sindrome_me_lo_merezco" := by
  simp only [sindromeMeLoMerezco] at h
  split at h
  · exact Option.noConfusion h
  · rw [Option.some.injEq] at h
    subst h
    rfl

theorem martirComisiones_id {txns : List CTx} {a : Award}
    (h : martirComisiones txns = some a) : a.id = "martir_comisiones" := by
  simp only [martirComisiones] at h
  split at h
  · exact Option.noConfusion h
  · rw [Option.some.injEq] at h
    subst h
    rfl

theorem sobrevivienteExtremo_id {txns : List CTx} {a : Award}
    (h : sobrevivienteExtremo txns = some a) : a.id = "sobreviviente_extremo" := by
  unfold sobrevivienteExtremo at h
  split at h
  · exact Option.noConfusion h
  · split at h
    · rw [Option.some.injEq] at h
      subst h
      rfl
    · exact Option.noConfusion h

theorem evalRel {f g : List CTx → Option Award} {sf sg : String} (txns : List CTx)
    (hf : ∀ {t : List CTx} {a : Award}, f t = some a → a.id = sf)
    (hg : ∀ {t : List CTx} {a : Award}, g t = some a → a.id = sg)
    (hlt : evalIdx sf < evalIdx sg) :
    ∀ x ∈ f txns, ∀ y ∈ g txns, evalIdx x.id < evalIdx y.id := by
  intro x hx y hy
  rw [hf (Option.mem_def.mp hx), hg (Option.mem_def.mp hy)]
  exact hlt

theorem rawAwards_pairwise (txns : List CTx) :
    (rawAwards txns).Pairwise fun a b => evalIdx a.id < evalIdx b.id := by
  unfold rawAwards EVALUATORS
  rw [List.pairwise_filterMap]
  refine List.Pairwise.cons ?_ (List.Pairwise.cons ?_ (List.Pairwise.cons ?_
    (List.Pairwise.cons ?_ (List.Pairwise.cons ?_ (List.Pairwise.cons ?_
    (List.Pairwise.cons ?_ (List.Pairwise.cons ?_ List.Pairwise.nil)))))))
  · intro g hg
    fin_cases hg
    · exact evalRel txns indiceGodin_id accionistaUber_id (by decide)
    · exact evalRel txns indiceGodin_id bancoCentral_id (by decide)
    · exact evalRel txns indiceGodin_id hoyoNegroEfectivo_id (by decide)
    · exact evalRel txns indiceGodin_id socioSmartfit_id (by decide)
    · exact evalRel txns indiceGodin_id sindromeMeLoMerezco_id (by decide)
    · exact evalRel txns indiceGodin_id martirComisiones_id (by decide)
    · exact evalRel txns indiceGodin_id sobrevivienteExtremo_id (by decide)
  · intro g hg
    fin_cases hg
    · exact evalRel txns accionistaUber_id bancoCentral_id (by decide)
    · exact evalRel txns accionistaUber_id hoyoNegroEfectivo_id (by decide)
    · exact evalRel txns accionistaUber_id socioSmartfit_id (by decide)
    · exact evalRel txns accionistaUber_id sindromeMeLoMerezco_id (by decide)
    · exact evalRel txns accionistaUber_id martirComisiones_id (by decide)
    · exact evalRel txns accionistaUber_id sobrevivienteExtremo_id (by decide)
  · intro g hg
    fin_cases hg
    · exact evalRel txns bancoCentral_id hoyoNegroEfectivo_id (by decide)
    · exact evalRel txns bancoCentral_id socioSmartfit_id (by decide)
    · exact evalRel txns bancoCentral_id sindromeMeLoMerezco_id (by decide)
    · exact evalRel txns bancoCentral_id martirComisiones_id (by decide)
    · exact evalRel txns bancoCentral_id sobrevivienteExtremo_id (by decide)
  · intro g hg
    fin_cases hg
    · exact evalRel txns hoyoNegroEfectivo_id socioSmartfit_id (by decide)
    · exact evalRel txns hoyoNegroEfectivo_id sindromeMeLoMerezco_id (by decide)
    · exact evalRel txns hoyoNegroEfectivo_id martirComisiones_id (by decide)
    · exact evalRel txns hoyoNegroEfectivo_id sobrevivienteExtremo_id (by decide)
  · intro g hg
    fin_cases hg
    · exact evalRel txns socioSmartfit_id sindromeMeLoMerezco_id (by decide)
    · exact evalRel txns socioSmartfit_id martirComisiones_id (by decide)
    · exact evalRel txns socioSmartfit_id sobrevivienteExtremo_id (by decide)
  · intro g hg
    fin_cases hg
    · exact evalRel txns sindromeMeLoMerezco_id martirComisiones_id (by decide)
    · exact evalRel txns sindromeMeLoMerezco_id sobrevivienteExtremo_id (by decide)
  · intro g hg
    fin_cases hg
    · exact evalRel txns martirComisiones_id sobrevivienteExtremo_id (by decide)
  · intro g hg
    fin_cases hg

/-- C9: the list returned by `calculateAwards` is sorted descending by
trigger value, and any two awards with equal trigger value appear in the
fixed evaluator order. -/
theorem calculateAwards_ranking (txns : List CTx) :
    (calculateAwards txns).Pairwise fun a b =>
      b.trigger_value ≤ a.trigger_value ∧
        (a.trigger_value = b.trigger_value → evalIdx a.id < evalIdx b.id) := by
  have hp := rawAwards_pairwise txns
  have hasymm : ∀ a b : Award, decide (b.trigger_value < a.trigger_value) = true →
      decide (a.trigger_value < b.trigger_value) = false := by
    intro a b h
    rw [decide_eq_true_eq] at h
    rw [decide_eq_false_iff_not]
    omega
  have htrans : ∀ a b c : Award, decide (b.trigger_value < a.trigger_value) = true →
      decide (c.trigger_value < b.trigger_value) = true →
      decide (c.trigger_value < a.trigger_value) = true := by
    intro a b c h1 h2
    rw [decide_eq_true_eq] at h1 h2
    rw [decide_eq_true_eq]
    omega
  have hconn : ∀ a b c : Award, decide (b.trigger_value < a.trigger_value) = true →
      decide (b.trigger_value < c.trigger_value) = false →
      decide (c.trigger_value < a.trigger_value) = true := by
    intro a b c h1 h2
    rw [decide_eq_true_eq] at h1
    rw [decide_eq_false_iff_not] at h2
    rw [decide_eq_true_eq]
    omega
  unfold calculateAwards sortAwards
  have hs := stableSortBy_pairwise (fun a b => decide (b.trigger_value < a.trigger_value))
    (fun a b => evalIdx a.id < evalIdx b.id) hasymm htrans hconn (rawAwards txns) hp
  refine hs.imp ?_
  intro a b hab
  obtain ⟨h1, h2⟩ := hab
  rw [decide_eq_false_iff_not] at h1
  constructor
  · omega
  · intro heq
    refine h2 ?_
    rw [decide_eq_false_iff_not]
    omega

/- ### The balance simulation: claims C4 and C6 -/

theorem simLoop_eq_foldl (net : Date → Int) (last : Date) :
    ∀ (fuel : Nat) (cur : Date) (run : Int) (acc res : Option (Int × Date)),
      simLoop net last fuel cur run acc = some res →
      res = ((withBalances net (dayList last fuel cur) run).filter critLow).foldl
        (fun a p => updLow a p.1 p.2) acc
  | 0, cur, run, acc, res, h => by
    simp only [simLoop] at h
    split at h
    · exact Option.noConfusion h
    · rw [Option.some.injEq] at h
      subst h
      simp [dayList, withBalances]
  | fuel + 1, cur, run, acc, res, h => by
    simp only [simLoop] at h
    split at h
    · next hg =>
      have ih := simLoop_eq_foldl net last fuel (nextDay cur) (run + net cur) _ res h
      simp only [dayList, hg, if_true, withBalances]
      rw [List.filter_cons]
      by_cases hcrit : critLow (cur, run + net cur) = true
      · rw [if_pos hcrit, List.foldl_cons, ih,
          if_pos (show (critDay cur && decide (run + net cur < 50)) = true from hcrit)]
      · rw [if_neg hcrit, ih,
          if_neg (show ¬ (critDay cur && decide (run + net cur < 50)) = true from hcrit)]
    · next hg =>
      rw [Option.some.injEq] at h
      subst h
      simp [dayList, hg, withBalances]

theorem foldl_updLow_keep :
    ∀ (l : List (Date × Int)) (b : Int) (d : Date),
      (∀ p ∈ l, b ≤ p.2) →
      l.foldl (fun a p => updLow a p.1 p.2) (some (b, d)) = some (b, d)
  | [], _, _, _ => rfl
  | p :: l, b, d, h => by
    have hp : ¬ p.2 < b := by
      have := h p (List.mem_cons_self ..)
      omega
    simp only [List.foldl_cons, updLow, if_neg hp]
    exact foldl_updLow_keep l b d fun q hq => h q (List.mem_cons_of_mem _ hq)

theorem foldl_updLow_some :
    ∀ (l : List (Date × Int)) (b : Int) (d : Date),
      ∃ v dv, l.foldl (fun a p => updLow a p.1 p.2) (some (b, d)) = some (v, dv)
  | [], b, d => ⟨b, d, rfl⟩
  | p :: l, b, d => by
    simp only [List.foldl_cons, updLow]
    split
    · exact foldl_updLow_some l p.2 p.1
    · exact foldl_updLow_some l b d

theorem foldl_updLow_none_iff (l : List (Date × Int)) :
    l.foldl (fun a p => updLow a p.1 p.2) none = none ↔ l = [] := by
  cases l with
  | nil => simp
  | cons p rest =>
    simp only [List.foldl_cons]
    have hstep : updLow none p.1 p.2 = some (p.2, p.1) := rfl
    rw [hstep]
    obtain ⟨v, dv, hv⟩ := foldl_updLow_some rest p.2 p.1
    rw [hv]
    simp

theorem foldl_updLow_argmin :
    ∀ (pre post : List (Date × Int)) (b : Int) (dte : Date) (acc : Option (Int × Date)),
      (acc = none ∨ ∃ v dv, acc = some (v, dv) ∧ b < v) →
      (∀ p ∈ pre, b < p.2) → (∀ p ∈ post, b ≤ p.2) →
      (pre ++ (dte, b) :: post).foldl (fun a p => updLow a p.1 p.2) acc = some (b, dte)
  | [], post, b, dte, acc, hacc, _, hpost => by
    have hstep : updLow acc dte b = some (b, dte) := by
      rcases hacc with rfl | ⟨v, dv, rfl, hv⟩
      · rfl
      · simp [updLow, hv]
    simp only [List.nil_append, List.foldl_cons]
    rw [hstep]
    exact foldl_updLow_keep post b dte hpost
  | p :: pre, post, b, dte, acc, hacc, hpre, hpost => by
    simp only [List.cons_append, List.foldl_cons]
    have hbp : b < p.2 := hpre p (List.mem_cons_self ..)
    refine foldl_updLow_argmin pre post b dte _ ?_
      (fun q hq => hpre q (List.mem_cons_of_mem _ hq)) hpost
    rcases hacc with rfl | ⟨v, dv, rfl, hv⟩
    · exact Or.inr ⟨p.2, p.1, rfl, hbp⟩
    · by_cases h : p.2 < v
      · exact Or.inr ⟨p.2, p.1, by simp [updLow, h], hbp⟩
      · exact Or.inr ⟨v, dv, by simp [updLow, h], hv⟩

/-- C4: `sobrevivienteExtremo` simulates a running balance starting at zero
over every calendar day from the first to the last transaction date
inclusive, transactions sharing a date summed together; among the days with
day-of-month 13, 14, 28 or 29 and balance below 50, the first day attaining
the lowest balance triggers the award with trigger value
`max 0 (50 - lowest)`, and no award triggers when no such day exists. -/
theorem sobrevivienteExtremo_spec (txns : List CTx) (hne : txns ≠ [])
    (hval : ∀ t ∈ txns, validDate t.date = true) :
    (sobrevivienteExtremo txns = none ↔ sobrevCandidates txns = []) ∧
    ∀ (pre post : List (Date × Int)) (b : Int) (dte : Date),
      sobrevCandidates txns = pre ++ (dte, b) :: post →
      (∀ p ∈ pre, b < p.2) → (∀ p ∈ post, b ≤ p.2) →
      sobrevivienteCore txns = some (some (b, dte)) ∧
      sobrevivienteExtremo txns =
        some (Award.mk ("sobreviviente_extremo") (max 0 (50 - b))) := by
  obtain ⟨res, hres⟩ := Option.ne_none_iff_exists'.mp (sobrevivienteCore_ne_none hne hval)
  have hfold : res = (sobrevCandidates txns).foldl (fun a p => updLow a p.1 p.2) none := by
    cases hs : sortTxns txns with
    | nil => exact absurd hs (sortTxns_ne_nil hne)
    | cons t rest =>
      simp only [sobrevivienteCore, hs] at hres
      simp only [sobrevCandidates, hs]
      exact simLoop_eq_foldl _ _ _ _ _ _ _ hres
  obtain ⟨x, xs, rfl⟩ : ∃ x xs, txns = x :: xs := by
    cases txns with
    | nil => exact absurd rfl hne
    | cons x xs => exact ⟨x, xs, rfl⟩
  have hext : sobrevivienteExtremo (x :: xs) =
      (match res with
       | some (bal, _) => some (Award.mk ("sobreviviente_extremo") (max 0 (50 - bal)))
       | none => none) := by
    simp only [sobrevivienteExtremo, hres]
    cases res with
    | none => rfl
    | some p =>
      cases p with
      | mk bal dt => rfl
  have hresnone : res = none ↔ sobrevCandidates (x :: xs) = [] := by
    rw [hfold]
    exact foldl_updLow_none_iff _
  constructor
  · rw [hext]
    cases res with
    | none => simpa using hresnone
    | some p =>
      cases p with
      | mk bal dt =>
        simp only [Option.some.injEq]
        constructor
        · intro hc
          exact Option.noConfusion hc
        · intro hc
          exact absurd (hresnone.mpr hc) (by simp)
  · intro pre post b dte hdec hpre hpost
    have hargmin : res = some (b, dte) := by
      rw [hfold, hdec]
      exact foldl_updLow_argmin pre post b dte none (Or.inl rfl) hpre hpost
    subst hargmin
    exact ⟨hres, by rw [hext]⟩

/-- Witness for C4 at a one-transaction list with an outflow on a 13th. -/
theorem sobrevivienteExtremo_spec_witness :
    sobrevivienteCore [exC4] = some (some (-10, ⟨2025, 6, 13⟩)) ∧
    sobrevivienteExtremo [exC4] = some (Award.mk ("sobreviviente_extremo") 60) := by
  have h := (sobrevivienteExtremo_spec [exC4] (by decide) (by decide)).2
    [] [] (-10) ⟨2025, 6, 13⟩ (by decide) (by decide) (by decide)
  refine ⟨h.1, ?_⟩
  rw [h.2]
  decide

theorem netOn_map (l : List CTx) (d : Date) :
    netOn l d =
      (((l.map dateAmt).filter fun p => decide (p.1 = d)).map fun p => p.2).sum := by
  induction l with
  | nil => rfl
  | cons t rest ih =>
    by_cases hc : t.date = d
    · have h1 : netOn (t :: rest) d = t.amount + netOn rest d := by
        simp only [netOn, List.filter_cons]
        rw [if_pos (show decide (t.date = d) = true by simp [hc])]
        simp [netOn]
      have h2 : (((t :: rest).map dateAmt).filter fun p => decide (p.1 = d)) =
          dateAmt t :: ((rest.map dateAmt).filter fun p => decide (p.1 = d)) := by
        simp only [List.map_cons, List.filter_cons]
        rw [if_pos (show decide ((dateAmt t).1 = d) = true by simp [dateAmt, hc])]
      rw [h1, h2, ih]
      simp [dateAmt]
    · have h1 : netOn (t :: rest) d = netOn rest d := by
        simp only [netOn, List.filter_cons]
        rw [if_neg (show ¬ decide (t.date = d) = true by simp [hc])]
      have h2 : (((t :: rest).map dateAmt).filter fun p => decide (p.1 = d)) =
          ((rest.map dateAmt).filter fun p => decide (p.1 = d)) := by
        simp only [List.map_cons, List.filter_cons]
        rw [if_neg (show ¬ decide ((dateAmt t).1 = d) = true by simp [dateAmt, hc])]
      rw [h1, h2, ih]

theorem netOn_congr {l1 l2 : List CTx}
    (h : (l1.map dateAmt).Perm (l2.map dateAmt)) (d : Date) :
    netOn l1 d = netOn l2 d := by
  rw [netOn_map, netOn_map]
  exact ((h.filter _).map _).sum_eq

theorem sortTxns_dates_sorted (l : List CTx) :
    ((sortTxns l).map fun t => t.date).Pairwise dateLeP := by
  rw [List.pairwise_map]
  exact (sortTxns_sorted l).imp fun h => dateLe_of_not_lt h

theorem map_date_eq_comp (l : List CTx) :
    (l.map fun t => t.date) = (l.map dateAmt).map Prod.fst := by
  rw [List.map_map]
  rfl

theorem sortTxns_map_date_eq {l1 l2 : List CTx}
    (h : (l1.map dateAmt).Perm (l2.map dateAmt)) :
    ((sortTxns l1).map fun t => t.date) = (sortTxns l2).map fun t => t.date := by
  have hperm : ((sortTxns l1).map fun t => t.date).Perm
      ((sortTxns l2).map fun t => t.date) := by
    refine ((sortTxns_perm l1).map _).trans (.trans ?_ (((sortTxns_perm l2).map _).symm))
    rw [map_date_eq_comp, map_date_eq_comp]
    exact h.map _
  exact List.eq_of_perm_of_sorted hperm (sortTxns_dates_sorted l1) (sortTxns_dates_sorted l2)

theorem sobrevivienteCore_congr {l1 l2 : List CTx}
    (h : (l1.map dateAmt).Perm (l2.map dateAmt)) :
    sobrevivienteCore l1 = sobrevivienteCore l2 := by
  have hd := sortTxns_map_date_eq h
  have hnet : ∀ d, netOn (sortTxns l1) d = netOn (sortTxns l2) d := by
    intro d
    refine netOn_congr ?_ d
    exact ((sortTxns_perm l1).map _).trans (h.trans (((sortTxns_perm l2).map _).symm))
  cases hs1 : sortTxns l1 with
  | nil =>
    cases hs2 : sortTxns l2 with
    | nil => simp [sobrevivienteCore, hs1, hs2]
    | cons t2 r2 =>
      rw [hs1, hs2] at hd
      exact absurd hd (by simp)
  | cons t1 r1 =>
    cases hs2 : sortTxns l2 with
    | nil =>
      rw [hs1, hs2] at hd
      exact absurd hd (by simp)
    | cons t2 r2 =>
      rw [hs1, hs2] at hd hnet
      simp only [List.map_cons, List.cons.injEq] at hd
      obtain ⟨hdate, hdates⟩ := hd
      have hnetf : netOn (t1 :: r1) = netOn (t2 :: r2) := funext hnet
      have hlast : (r1.getLastD t1).date = (r2.getLastD t2).date := by
        have g1 := List.getLastD_map (fun t : CTx => t.date) r1 t1
        have g2 := List.getLastD_map (fun t : CTx => t.date) r2 t2
        rw [← g1, ← g2, hdates, hdate]
      simp only [sobrevivienteCore, hs1, hs2]
      rw [hnetf, hdate, hlast]

theorem sobrevivienteExtremo_congr {l1 l2 : List CTx}
    (h : (l1.map dateAmt).Perm (l2.map dateAmt)) :
    sobrevivienteExtremo l1 = sobrevivienteExtremo l2 := by
  have hcore := sobrevivienteCore_congr h
  have hlen : l1.length = l2.length := by
    have := h.length_eq
    simpa using this
  cases l1 with
  | nil =>
    cases l2 with
    | nil => rfl
    | cons y ys => simp at hlen
  | cons x xs =>
    cases l2 with
    | nil => simp at hlen
    | cons y ys =>
      simp only [sobrevivienteExtremo]
      rw [hcore]

set_option maxRecDepth 100000 in
/-- C6 counterexample: the survival simulation accumulates the per-day nets
by IEEE-754 binary64 addition in input order, so it is not permutation
invariant.  On three same-day deposits of `0.1`, `0.2` and `0.3` on a
critical day, the original order yields the lowest balance
`0.6000000000000001` (`5404319552844596 * 2 ^ (-53)`) while the reversed
order — a permutation — yields `0.6` (`5404319552844595 * 2 ^ (-53)`), a
strictly smaller value: the lowest balance is not the same, refuting the
identical-result claim for the source arithmetic. -/
theorem sobreviviente_float_order_counterexample :
    exC6F.reverse.Perm exC6F ∧
    sobrevivienteCoreF exC6F =
      some (some (⟨5404319552844596, -53⟩, ⟨2025, 6, 13⟩)) ∧
    sobrevivienteCoreF exC6F.reverse =
      some (some (⟨5404319552844595, -53⟩, ⟨2025, 6, 13⟩)) ∧
    dlt ⟨5404319552844595, -53⟩ ⟨5404319552844596, -53⟩ = true :=
  ⟨List.reverse_perm exC6F, by decide, by decide, by decide⟩

/-- C6 (amended): restricted to integer amounts — for which binary64
addition is exact, so the `Int` embedding is faithful — `sobrevivienteExtremo`
returns an identical result on any permutation of the transaction list: the
same trigger decision, the same lowest balance, the same triggering date and
the same trigger value.  In general the binary64 per-day nets depend on the
summation order and the guarantee fails. -/
theorem sobreviviente_perm_invariant (l1 l2 : List CTx) (h : l1.Perm l2) :
    sobrevivienteCore l1 = sobrevivienteCore l2 ∧
      sobrevivienteExtremo l1 = sobrevivienteExtremo l2 :=
  ⟨sobrevivienteCore_congr (h.map dateAmt), sobrevivienteExtremo_congr (h.map dateAmt)⟩

/-- Witness for C6 at a two-element swap. -/
theorem sobreviviente_perm_invariant_witness :
    sobrevivienteCore [exC6a, exC6b] = sobrevivienteCore [exC6b, exC6a] ∧
      sobrevivienteExtremo [exC6a, exC6b] = sobrevivienteExtremo [exC6b, exC6a] :=
  sobreviviente_perm_invariant _ _ (List.Perm.swap exC6b exC6a [])

/- ### Award presence under a category change: claim C2 -/

/-- C2 counterexample: on two same-day convenience-store outflows, flipping
the sign of one amount (the modification that reduces the qualifying
convenience-store outflows from 2 to 1) removes the indice godin award but
also removes the sobreviviente extremo award, so the presence of another
award changes. -/
theorem calculateAwards_modify_counterexample :
    convOutflows [exC2a, exC2b] = 2 ∧ convOutflows [exC2a, exC2bFlip] = 1 ∧
    AwardPresent (calculateAwards [exC2a, exC2b]) ("indice_godin") ∧
    AwardPresent (calculateAwards [exC2a, exC2b]) ("sobreviviente_extremo") ∧
    ¬ AwardPresent (calculateAwards [exC2a, exC2bFlip]) ("indice_godin") ∧
    ¬ AwardPresent (calculateAwards [exC2a, exC2bFlip]) ("sobreviviente_extremo") := by
  refine ⟨?_, ?_, ?_, ?_, ?_, ?_⟩ <;> decide

theorem filter_mid_congr (p : CTx → Bool) (A B : List CTx) (t t2 : CTx)
    (h1 : p t = false) (h2 : p t2 = false) :
    (A ++ t :: B).filter p = (A ++ t2 :: B).filter p := by
  simp [List.filter_append, List.filter_cons, h1, h2]

theorem accionistaUber_modCat (A B : List CTx) (t : CTx)
    (hconv : t.category = Category.convenience_store) :
    accionistaUber (A ++ t :: B) = accionistaUber (A ++ modCat t :: B) := by
  unfold accionistaUber
  rw [filter_mid_congr (fun x => decide (x.category = Category.rideshare ∧ x.amount < 0))
    A B t (modCat t) (by simp [hconv]) (by simp [modCat])]

theorem hoyoNegroEfectivo_modCat (A B : List CTx) (t : CTx)
    (hconv : t.category = Category.convenience_store) :
    hoyoNegroEfectivo (A ++ t :: B) = hoyoNegroEfectivo (A ++ modCat t :: B) := by
  unfold hoyoNegroEfectivo
  rw [filter_mid_congr (fun x => decide (x.category = Category.cash_withdrawal ∧ x.amount < 0))
    A B t (modCat t) (by simp [hconv]) (by simp [modCat])]

theorem socioSmartfit_modCat (A B : List CTx) (t : CTx)
    (hconv : t.category = Category.convenience_store) :
    socioSmartfit (A ++ t :: B) = socioSmartfit (A ++ modCat t :: B) := by
  unfold socioSmartfit
  rw [filter_mid_congr (fun x => decide (x.category = Category.subscription_gym))
    A B t (modCat t) (by simp [hconv]) (by simp [modCat])]
  rw [filter_mid_congr (fun x => decide (x.category = Category.food_delivery ∧ x.amount < 0))
    A B t (modCat t) (by simp [hconv]) (by simp [modCat])]

theorem sindromeMeLoMerezco_modCat (A B : List CTx) (t : CTx)
    (hconv : t.category = Category.convenience_store) :
    sindromeMeLoMerezco (A ++ t :: B) = sindromeMeLoMerezco (A ++ modCat t :: B) := by
  unfold sindromeMeLoMerezco
  rw [filter_mid_congr (fun x => decide (x.category = Category.ecommerce ∧ x.amount < -500 ∧
    (dom x.date = 15 ∨ dom x.date = 30 ∨ dom x.date = 31)))
    A B t (modCat t) (by simp [hconv]) (by simp [modCat])]

theorem martirComisiones_modCat (A B : List CTx) (t : CTx)
    (hconv : t.category = Category.convenience_store) :
    martirComisiones (A ++ t :: B) = martirComisiones (A ++ modCat t :: B) := by
  unfold martirComisiones
  rw [filter_mid_congr (fun x => decide (x.category = Category.bank_fee ∧ x.amount < 0))
    A B t (modCat t) (by simp [hconv]) (by simp [modCat])]

theorem bcIncomingCount_modCat (A B : List CTx) (t : CTx)
    (hconv : t.category = Category.convenience_store) (d : Date) :
    bcIncomingCount (A ++ t :: B) d = bcIncomingCount (A ++ modCat t :: B) d := by
  unfold bcIncomingCount
  rw [filter_mid_congr (fun x => decide (x.category = Category.spei_transfer ∧ 0 < x.amount ∧
    0 ≤ daysBetween d x.date ∧ daysBetween d x.date ≤ 2))
    A B t (modCat t) (by simp [hconv]) (by simp [modCat])]

theorem bcLoop_congr2 (txns1 txns2 : List CTx)
    (hcount : ∀ d, bcIncomingCount txns1 d = bcIncomingCount txns2 d) :
    ∀ (l1 l2 : List CTx), l1.map dateAmt = l2.map dateAmt →
      bcLoop txns1 l1 = bcLoop txns2 l2
  | [], [], _ => rfl
  | [], _ :: _, h => by simp at h
  | _ :: _, [], h => by simp at h
  | a :: l1, b :: l2, h => by
    simp only [List.map_cons, List.cons.injEq] at h
    obtain ⟨hab, hrest⟩ := h
    have hdate : a.date = b.date := congrArg Prod.fst hab
    have hamount : a.amount = b.amount := congrArg Prod.snd hab
    simp only [bcLoop]
    rw [hdate, hcount b.date, hamount]
    by_cases hc : bcIncomingCount txns2 b.date < 3
    · rw [if_pos hc, if_pos hc]
      exact bcLoop_congr2 txns1 txns2 hcount l1 l2 hrest
    · rw [if_neg hc, if_neg hc]

theorem mid_map_dateAmt_eq (A B : List CTx) (t : CTx) :
    (A ++ t :: B).map dateAmt = (A ++ modCat t :: B).map dateAmt := by
  simp only [List.map_append, List.map_cons]
  rfl

theorem bancoCentral_modCat (A B : List CTx) (t : CTx)
    (hconv : t.category = Category.convenience_store) :
    bancoCentral (A ++ t :: B) = bancoCentral (A ++ modCat t :: B) := by
  unfold bancoCentral
  refine bcLoop_congr2 _ _ (bcIncomingCount_modCat A B t hconv) _ _ ?_
  have hp : bigWeekendPred (modCat t) = bigWeekendPred t := rfl
  rw [List.filter_append, List.filter_append, List.filter_cons, List.filter_cons, hp]
  by_cases hb : bigWeekendPred t = true
  · rw [if_pos hb, if_pos hb]
    simp only [List.map_append, List.map_cons]
    rfl
  · rw [if_neg hb, if_neg hb]

theorem sobrevivienteExtremo_modCat (A B : List CTx) (t : CTx) :
    sobrevivienteExtremo (A ++ t :: B) = sobrevivienteExtremo (A ++ modCat t :: B) :=
  sobrevivienteExtremo_congr (mid_map_dateAmt_eq A B t ▸ List.Perm.refl _)

theorem indiceGodin_drop (A B : List CTx) (t : CTx)
    (hconv : t.category = Category.convenience_store) (hneg : t.amount < 0)
    (hcount : convOutflows (A ++ t :: B) = 2) :
    (∃ v, indiceGodin (A ++ t :: B) = some (Award.mk ("indice_godin") v)) ∧
    indiceGodin (A ++ modCat t :: B) = none := by
  have hp : decide (t.category = Category.convenience_store ∧ t.amount < 0) = true := by
    simp [hconv, hneg]
  have hp2 : decide ((modCat t).category = Category.convenience_store ∧
      (modCat t).amount < 0) = false := by
    simp [modCat]
  have hc1 : ((t :: B).filter fun x =>
        decide (x.category = Category.convenience_store ∧ x.amount < 0)) =
      t :: (B.filter fun x =>
        decide (x.category = Category.convenience_store ∧ x.amount < 0)) := by
    simp [List.filter_cons, hconv, hneg]
  have hc2 : ((modCat t :: B).filter fun x =>
        decide (x.category = Category.convenience_store ∧ x.amount < 0)) =
      B.filter fun x =>
        decide (x.category = Category.convenience_store ∧ x.amount < 0) := by
    simp [List.filter_cons, modCat]
  have e1 : ((A ++ t :: B).filter fun x =>
        decide (x.category = Category.convenience_store ∧ x.amount < 0)) =
      (A.filter fun x => decide (x.category = Category.convenience_store ∧ x.amount < 0)) ++
        t :: (B.filter fun x =>
          decide (x.category = Category.convenience_store ∧ x.amount < 0)) := by
    rw [List.filter_append, hc1]
  have e2 : ((A ++ modCat t :: B).filter fun x =>
        decide (x.category = Category.convenience_store ∧ x.amount < 0)) =
      (A.filter fun x => decide (x.category = Category.convenience_store ∧ x.amount < 0)) ++
        (B.filter fun x =>
          decide (x.category = Category.convenience_store ∧ x.amount < 0)) := by
    rw [List.filter_append, hc2]
  unfold convOutflows at hcount
  rw [e1] at hcount
  simp only [List.length_append, List.length_cons] at hcount
  constructor
  · refine ⟨(((A ++ t :: B).filter fun x =>
        decide (x.category = Category.convenience_store ∧ x.amount < 0)).length : Int), ?_⟩
    unfold indiceGodin
    rw [if_neg (by rw [e1]; simp only [List.length_append, List.length_cons]; omega)]
  · unfold indiceGodin
    rw [if_pos (by rw [e2]; simp only [List.length_append]; omega)]

theorem filterMap_apply_congr {β γ : Type} (x y : γ) :
    ∀ l : List (γ → Option β), (∀ f ∈ l, f x = f y) →
      (l.filterMap fun f => f x) = l.filterMap fun f => f y
  | [], _ => rfl
  | f :: l, h => by
    have hf := h f (List.mem_cons_self ..)
    have ih := filterMap_apply_congr x y l fun g hg => h g (List.mem_cons_of_mem _ hg)
    simp only [List.filterMap_cons]
    rw [hf, ih]

theorem awardPresent_sort (l : List CTx) (i : String) :
    AwardPresent (calculateAwards l) i ↔ AwardPresent (rawAwards l) i := by
  unfold calculateAwards sortAwards AwardPresent
  constructor
  · intro ⟨a, ha, hid⟩
    exact ⟨a, (stableSortBy_perm _ _).mem_iff.mp ha, hid⟩
  · intro ⟨a, ha, hid⟩
    exact ⟨a, (stableSortBy_perm _ _).mem_iff.mpr ha, hid⟩

/-- C2 amended (the claim as stated fails, see the counterexample: a
modification that breaks the threshold also feeds the balance simulation
and can remove `sobreviviente_extremo` as well): when exactly two
convenience-store outflows exist, changing the category of one of them to
`other` while keeping its date and amount removes exactly `indice_godin`
from the output of `calculateAwards`: it is present before, absent after,
and the presence of every other award id is unchanged. -/
theorem calculateAwards_category_drop (A B : List CTx) (t : CTx)
    (hconv : t.category = Category.convenience_store) (hneg : t.amount < 0)
    (hcount : convOutflows (A ++ t :: B) = 2) :
    AwardPresent (calculateAwards (A ++ t :: B)) ("indice_godin") ∧
    ¬ AwardPresent (calculateAwards (A ++ modCat t :: B)) ("indice_godin") ∧
    ∀ i : String, i ≠ "indice_godin" →
      (AwardPresent (calculateAwards (A ++ t :: B)) i ↔
        AwardPresent (calculateAwards (A ++ modCat t :: B)) i) := by
  obtain ⟨⟨v, hg1⟩, hg2⟩ := indiceGodin_drop A B t hconv hneg hcount
  have h2 := accionistaUber_modCat A B t hconv
  have h3 := bancoCentral_modCat A B t hconv
  have h4 := hoyoNegroEfectivo_modCat A B t hconv
  have h5 := socioSmartfit_modCat A B t hconv
  have h6 := sindromeMeLoMerezco_modCat A B t hconv
  have h7 := martirComisiones_modCat A B t hconv
  have h8 := sobrevivienteExtremo_modCat A B t
  have hrest : ([accionistaUber, bancoCentral, hoyoNegroEfectivo, socioSmartfit,
      sindromeMeLoMerezco, martirComisiones, sobrevivienteExtremo].filterMap
        fun f => f (A ++ t :: B)) =
      [accionistaUber, bancoCentral, hoyoNegroEfectivo, socioSmartfit,
      sindromeMeLoMerezco, martirComisiones, sobrevivienteExtremo].filterMap
        fun f => f (A ++ modCat t :: B) := by
    refine filterMap_apply_congr _ _ _ ?_
    intro f hf
    fin_cases hf
    · exact h2
    · exact h3
    · exact h4
    · exact h5
    · exact h6
    · exact h7
    · exact h8
  have hraw1 : rawAwards (A ++ t :: B) =
      Award.mk ("indice_godin") v :: ([accionistaUber, bancoCentral, hoyoNegroEfectivo,
        socioSmartfit, sindromeMeLoMerezco, martirComisiones, sobrevivienteExtremo].filterMap
          fun f => f (A ++ t :: B)) := by
    simp only [rawAwards, EVALUATORS, List.filterMap_cons, hg1]
  have hraw2 : rawAwards (A ++ modCat t :: B) =
      ([accionistaUber, bancoCentral, hoyoNegroEfectivo, socioSmartfit,
        sindromeMeLoMerezco, martirComisiones, sobrevivienteExtremo].filterMap
          fun f => f (A ++ modCat t :: B)) := by
    simp only [rawAwards, EVALUATORS, List.filterMap_cons, hg2]
  have hother : ∀ a ∈ ([accionistaUber, bancoCentral, hoyoNegroEfectivo, socioSmartfit,
      sindromeMeLoMerezco, martirComisiones, sobrevivienteExtremo].filterMap
        fun f => f (A ++ modCat t :: B)), a.id ≠ "indice_godin" := by
    intro a ha
    obtain ⟨f, hf, hfa⟩ := List.mem_filterMap.mp ha
    fin_cases hf
    · rw [accionistaUber_id hfa]
      decide
    · rw [bancoCentral_id hfa]
      decide
    · rw [hoyoNegroEfectivo_id hfa]
      decide
    · rw [socioSmartfit_id hfa]
      decide
    · rw [sindromeMeLoMerezco_id hfa]
      decide
    · rw [martirComisiones_id hfa]
      decide
    · rw [sobrevivienteExtremo_id hfa]
      decide
  refine ⟨?_, ?_, ?_⟩
  · rw [awardPresent_sort, hraw1]
    exact ⟨Award.mk ("indice_godin") v, List.mem_cons_self .., rfl⟩
  · rw [awardPresent_sort, hraw2]
    intro h
    obtain ⟨a, ha, hid⟩ := h
    exact hother a ha hid
  · intro i hi
    rw [awardPresent_sort, awardPresent_sort, hraw1, hraw2, ← hrest]
    unfold AwardPresent
    constructor
    · intro h
      obtain ⟨a, ha, hid⟩ := h
      rcases List.mem_cons.mp ha with rfl | ha2
      · exact absurd hid.symm hi
      · exact ⟨a, ha2, hid⟩
    · intro h
      obtain ⟨a, ha, hid⟩ := h
      exact ⟨a, List.mem_cons_of_mem _ ha, hid⟩

/-- Witness for the amended C2 at the concrete two-transaction example. -/
theorem calculateAwards_category_drop_witness :
    AwardPresent (calculateAwards ([exC2a] ++ exC2b :: [])) ("indice_godin") ∧
    ¬ AwardPresent (calculateAwards ([exC2a] ++ modCat exC2b :: [])) ("indice_godin") := by
  have h := calculateAwards_category_drop [exC2a] [] exC2b (by decide) (by decide) (by decide)
  exact ⟨h.1, h.2.1⟩

/- ### Streak detector: claim C3 -/

theorem okRun_countBack (id : String) :
    ∀ (L : List HistoryRow) (later : Option HistoryRow),
      okRun id L later (countBack id L later) = true
  | [], _ => rfl
  | r :: rest, later => by
    by_cases hwon : wonIn r id = true
    · cases later with
      | none =>
        have ih := okRun_countBack id rest (some r)
        simp [countBack, okRun, hwon, ih]
      | some l =>
        by_cases hnm : isNextMonth r.month l.month = true
        · have ih := okRun_countBack id rest (some r)
          simp [countBack, okRun, hwon, hnm, ih]
        · simp [countBack, okRun, hwon, hnm]
    · simp [countBack, okRun, hwon]

theorem okRun_le (id : String) :
    ∀ (L : List HistoryRow) (later : Option HistoryRow) (n : Nat),
      okRun id L later n = true → n ≤ countBack id L later
  | _, _, 0, _ => Nat.zero_le _
  | [], _, _ + 1, h => by simp [okRun] at h
  | r :: rest, later, n + 1, h => by
    simp only [okRun, Bool.and_eq_true] at h
    obtain ⟨⟨hwon, hadj⟩, hrest⟩ := h
    have ih := okRun_le id rest (some r) n hrest
    cases later with
    | none =>
      simp only [countBack, hwon, if_true]
      omega
    | some l =>
      have hnm : isNextMonth r.month l.month = true := by simpa using hadj
      simp only [countBack, hwon, if_true, hnm]
      omega

theorem okRun_iff (id : String) :
    ∀ (L : List HistoryRow) (later : Option HistoryRow) (n : Nat),
      okRun id L later n = true ↔
        n ≤ L.length ∧ ((L.take n).all fun r => wonIn r id) = true ∧
          revChainFrom later (L.take n) = true
  | _, later, 0 => by simp [okRun, revChainFrom]
  | [], later, n + 1 => by simp [okRun]
  | r :: rest, later, n + 1 => by
    simp only [okRun, Bool.and_eq_true, List.take_succ_cons, List.all_cons, List.length_cons,
      revChainFrom]
    rw [okRun_iff id rest (some r) n]
    constructor
    · intro hh
      obtain ⟨⟨hwon, hadj⟩, h1, h2, h3⟩ := hh
      exact ⟨by omega, ⟨hwon, h2⟩, ⟨hadj, h3⟩⟩
    · intro hh
      obtain ⟨h1, ⟨hwon, h2⟩, hadj, h3⟩ := hh
      exact ⟨⟨hwon, hadj⟩, by omega, h2, h3⟩

theorem revChainFrom_some_iff (l : HistoryRow) :
    ∀ T : List HistoryRow, revChainFrom (some l) T = true ↔
      List.Chain (fun a b => isNextMonth b.month a.month = true) l T
  | [] => by simp [revChainFrom]
  | r :: rest => by
    simp only [revChainFrom, Bool.and_eq_true, List.chain_cons]
    rw [revChainFrom_some_iff r rest]

theorem revChainFrom_none_iff :
    ∀ T : List HistoryRow, revChainFrom none T = true ↔
      T.Chain' fun a b => isNextMonth b.month a.month = true
  | [] => by simp [revChainFrom]
  | r :: rest => by
    have h1 : revChainFrom none (r :: rest) = revChainFrom (some r) rest := by
      simp [revChainFrom]
    rw [h1, revChainFrom_some_iff r rest]
    exact Iff.rfl

theorem suffixRun_iff_okRun (h : List HistoryRow) (id : String) (n : Nat) :
    suffixRun h id n ↔ okRun id h.reverse none n = true := by
  rw [okRun_iff, List.take_reverse, revChainFrom_none_iff, List.chain'_reverse]
  unfold suffixRun
  simp only [List.length_reverse, List.all_reverse, List.all_eq_true, flip]
  exact Iff.rfl

theorem suffixRun_streakCount (h : List HistoryRow) (id : String) :
    suffixRun h id (streakCount h id) :=
  (suffixRun_iff_okRun h id _).mpr (okRun_countBack id h.reverse none)

theorem suffixRun_le_streakCount (h : List HistoryRow) (id : String) (n : Nat)
    (hs : suffixRun h id n) : n ≤ streakCount h id :=
  okRun_le id h.reverse none n ((suffixRun_iff_okRun h id n).mp hs)

theorem mem_uniqueAux (x : String) :
    ∀ (l seen : List String), x ∈ uniqueAux seen l ↔ x ∈ l ∧ x ∉ seen
  | [], seen => by simp [uniqueAux]
  | a :: rest, seen => by
    by_cases hc : seen.contains a = true
    · have ha : a ∈ seen := List.elem_iff.mp hc
      rw [uniqueAux, if_pos hc, mem_uniqueAux x rest seen]
      constructor
      · intro ⟨h1, h2⟩
        exact ⟨List.mem_cons_of_mem _ h1, h2⟩
      · intro ⟨h1, h2⟩
        rcases List.mem_cons.mp h1 with rfl | h3
        · exact absurd ha h2
        · exact ⟨h3, h2⟩
    · rw [uniqueAux, if_neg hc]
      have ha : a ∉ seen := fun hm => hc (List.elem_iff.mpr hm)
      constructor
      · intro hm
        rcases List.mem_cons.mp hm with rfl | h3
        · exact ⟨List.mem_cons_self .., ha⟩
        · have := (mem_uniqueAux x rest (seen ++ [a])).mp h3
          refine ⟨List.mem_cons_of_mem _ this.1, fun hs => this.2 ?_⟩
          exact List.mem_append_left _ hs
      · intro ⟨h1, h2⟩
        rcases List.mem_cons.mp h1 with rfl | h3
        · exact List.mem_cons_self ..
        · by_cases hxa : x = a
          · subst hxa
            exact List.mem_cons_self ..
          · refine List.mem_cons_of_mem _ ((mem_uniqueAux x rest (seen ++ [a])).mpr ⟨h3, ?_⟩)
            intro hs
            rcases List.mem_append.mp hs with h4 | h4
            · exact h2 h4
            · exact hxa (by simpa using h4)

/-- C3: `findCurrentStreaks` returns the empty list on fewer than 2 months
of history; otherwise a pair `(id, c)` is reported exactly when `c` is at
least 2 and is the maximal run of consecutive-calendar-month summaries
ending at the most recent month in all of which the award `id` was won
(adjacency via `isNextMonth`, rolling December into January of the next
year; the walk stops at the first break), and the result is sorted
descending by count. -/
theorem findCurrentStreaks_spec (h : List HistoryRow) :
    (h.length < 2 → findCurrentStreaks h = []) ∧
    (2 ≤ h.length →
      (∀ (id : String) (c : Nat),
        (id, c) ∈ findCurrentStreaks h ↔
          (2 ≤ c ∧ suffixRun h id c ∧ ∀ n, suffixRun h id n → n ≤ c)) ∧
      (findCurrentStreaks h).Pairwise fun a b => b.2 ≤ a.2) := by
  constructor
  · intro hlt
    unfold findCurrentStreaks
    rw [if_pos hlt]
  · intro hge
    have hnotlt : ¬ h.length < 2 := by omega
    constructor
    · intro id c
      unfold findCurrentStreaks
      rw [if_neg hnotlt]
      rw [(stableSortBy_perm _ _).mem_iff, List.mem_filter]
      constructor
      · intro hm
        obtain ⟨hmem, hc⟩ := hm
        obtain ⟨i, hi, hieq⟩ := List.mem_map.mp hmem
        have e1 : i = id := congrArg Prod.fst hieq
        subst e1
        have e2 : streakCount h i = c := congrArg Prod.snd hieq
        subst e2
        have hc2 : 2 ≤ streakCount h i := by simpa using hc
        exact ⟨hc2, suffixRun_streakCount h i,
          fun n hn => suffixRun_le_streakCount h i n hn⟩
      · intro hm
        obtain ⟨hc2, hsuf, hmax⟩ := hm
        have hceq : c = streakCount h id :=
          le_antisymm (suffixRun_le_streakCount h id c hsuf)
            (hmax _ (suffixRun_streakCount h id))
        have hid : id ∈ h.flatMap fun r => r.awards_won := by
          obtain ⟨hlen, hwon, _⟩ := hsuf
          have hdroplen : (h.drop (h.length - c)).length = c := by
            rw [List.length_drop]
            omega
          obtain ⟨r, hr⟩ : ∃ r, r ∈ h.drop (h.length - c) := by
            cases hd : h.drop (h.length - c) with
            | nil =>
              rw [hd] at hdroplen
              simp at hdroplen
              omega
            | cons r rest =>
              refine ⟨r, ?_⟩
              exact List.mem_cons_self ..
          refine List.mem_flatMap.mpr ⟨r, List.mem_of_mem_drop hr, ?_⟩
          have hw := hwon r hr
          unfold wonIn at hw
          exact List.elem_iff.mp hw
        refine ⟨List.mem_map.mpr ⟨id, (mem_uniqueAux id _ []).mpr ⟨hid, by simp⟩, ?_⟩,
          by simpa using hc2⟩
        rw [hceq]
    · unfold findCurrentStreaks
      rw [if_neg hnotlt]
      have hsorted := stableSortBy_sorted
        (fun a b : String × Nat => decide (b.2 < a.2)) ?_ ?_ ?_
        (((uniqueAux [] (h.flatMap fun r => r.awards_won)).map
          fun id => (id, streakCount h id)).filter fun p => decide (2 ≤ p.2))
      · refine hsorted.imp ?_
        intro a b hab
        rw [decide_eq_false_iff_not] at hab
        omega
      · intro a b hab
        rw [decide_eq_true_eq] at hab
        rw [decide_eq_false_iff_not]
        omega
      · intro a b cc h1 h2
        rw [decide_eq_true_eq] at h1 h2
        rw [decide_eq_true_eq]
        omega
      · intro a b cc h1 h2
        rw [decide_eq_true_eq] at h1
        rw [decide_eq_false_iff_not] at h2
        rw [decide_eq_true_eq]
        omega

/-- Witness for C3 at the three-month example history. -/
theorem findCurrentStreaks_spec_witness :
    (("accionista_uber", 3)) ∈ findCurrentStreaks exHist :=
  (((findCurrentStreaks_spec exHist).2 (by decide)).1 ("accionista_uber") 3).mpr
    ⟨by decide,
      ⟨by decide, by decide,
        List.chain'_cons.mpr ⟨by decide,
          List.chain'_cons.mpr ⟨by decide, List.Chain.nil⟩⟩⟩,
      fun n hn => le_trans hn.1 (by decide)⟩
